import Mathlib

/-!
# Midpoint

A verification development for `midpoint.hpp`, which declares three overloads of
`std::midpoint`: one for integer types, one for floating-point types and one for
pointers.  Each overload is embedded below as a Lean function.  Integer values and
element indices are mathematical integers, with machine arithmetic made explicit by
reduction modulo a power of two; floating-point values are kept by class (NaN,
infinity, finite) with the rounding of finite results a parameter of the arithmetic,
instantiated by round to nearest, ties to even, of a binary format.  The properties the
specification states about the overloads are then proved.
-/

namespace Midpoint

/-! ## Integer types -/

/-- An integer type `_Int` accepted by the first overload: its signedness, its width
`bits` (value bits, sign bit included) and its storage size `sizeof` in bytes.  For
the standard integer types `bits = 8 * sizeof`. -/
structure IntType where
  isSigned : Bool
  bits : Nat
  sizeof : Nat
  deriving Repr, DecidableEq

/-- Least value of the type (`MIN`). -/
def IntType.minVal (t : IntType) : Int :=
  if t.isSigned then -(2 : Int) ^ (t.bits - 1) else 0

/-- Greatest value of the type (`MAX`). -/
def IntType.maxVal (t : IntType) : Int :=
  if t.isSigned then (2 : Int) ^ (t.bits - 1) - 1 else (2 : Int) ^ t.bits - 1

/-- The integer `x` is a value of the type `t`. -/
def IntType.holds (t : IntType) (x : Int) : Prop :=
  t.minVal ≤ x ∧ x ≤ t.maxVal

instance (t : IntType) (x : Int) : Decidable (t.holds x) := by
  unfold IntType.holds
  exact inferInstance

/-- Conversion to the signed `W`-bit type: the representative of `x` modulo `2 ^ W`
in `[-2 ^ (W - 1), 2 ^ (W - 1))`. -/
def toSigned (W : Nat) (x : Int) : Int :=
  (x + (2 : Int) ^ (W - 1)) % (2 : Int) ^ W - (2 : Int) ^ (W - 1)

/-- Conversion to the unsigned `W`-bit type: the representative of `x` modulo `2 ^ W`
in `[0, 2 ^ W)`. -/
def toUnsigned (W : Nat) (x : Int) : Int :=
  x % (2 : Int) ^ W

/-- Conversion of an integer to the type `t` (the narrowing applied to the value the
function returns). -/
def IntType.convert (t : IntType) (x : Int) : Int :=
  if t.isSigned then toSigned t.bits x else toUnsigned t.bits x

/-- Width of the intermediate type `_BitInt(8*sizeof(__a)+2)`. -/
def IntType.wideBits (t : IntType) : Nat :=
  8 * t.sizeof + 2

/-- The expression `_BitInt(W)(__a)+__b+(__a>__b)` evaluated in signed `W`-bit
arithmetic: both operands and the comparison bit are converted to the `W`-bit type
and each of the two additions is reduced modulo `2 ^ W`. -/
def widened (W : Nat) (a b : Int) : Int :=
  toSigned W (toSigned W (toSigned W a + toSigned W b) + toSigned W (if a > b then 1 else 0))

namespace Integral

/-- The integer overload: `(_BitInt(8*sizeof(__a)+2)(__a)+__b+(__a>__b)) >> 1`,
converted to `_Int` on return.  The shift of the signed intermediate is arithmetic. -/
def midpoint (t : IntType) (a b : Int) : Int :=
  t.convert (widened t.wideBits a b >>> (1 : Nat))

end Integral

/-- The exact, unbounded value of `a + b + (a > b)`. -/
def exactSum (a b : Int) : Int :=
  a + b + (if a > b then 1 else 0)

/-- The type `signed char`. -/
def int8 : IntType := ⟨true, 8, 1⟩

/-- The type `unsigned char`. -/
def uint8 : IntType := ⟨false, 8, 1⟩

/-- The type `int` (32 bits). -/
def int32 : IntType := ⟨true, 32, 4⟩

/-- The type `unsigned int` (32 bits). -/
def uint32 : IntType := ⟨false, 32, 4⟩

/-! ## Pointers -/

/-- A pointer into (or one past the end of) an array of `len` elements, as the index
of the element it points to. -/
def validIndex (len : Nat) (i : Int) : Prop :=
  0 ≤ i ∧ i ≤ (len : Int)

instance (len : Nat) (i : Int) : Decidable (validIndex len i) := by
  unfold validIndex
  exact inferInstance

/-- The integer `d` is a value of the signed `W`-bit difference type. -/
def fitsSigned (W : Nat) (d : Int) : Prop :=
  -(2 : Int) ^ (W - 1) ≤ d ∧ d ≤ (2 : Int) ^ (W - 1) - 1

instance (W : Nat) (d : Int) : Decidable (fitsSigned W d) := by
  unfold fitsSigned
  exact inferInstance

namespace Pointer

/-- The element distance `__b - __a`, a value of the signed `W`-bit difference type. -/
def distance (W : Nat) (a b : Int) : Int :=
  toSigned W (b - a)

/-- The pointer overload `__a + (__b - __a) / 2` on element indices: the distance is
taken in the signed `W`-bit difference type, `/` is the truncating division of signed
integers, and the quotient is added to `__a`. -/
def midpoint (W : Nat) (a b : Int) : Int :=
  a + Int.tdiv (distance W a b) 2

end Pointer

/-! ## Floating-point types -/

/-- A value of a binary floating-point type by class: not-a-number, an infinity with
its sign, or a finite number with its exact value (the sign of zero is not tracked). -/
inductive FloatVal where
  | nan : FloatVal
  | inf (neg : Bool) : FloatVal
  | fin (q : ℚ) : FloatVal
  deriving DecidableEq

namespace Floating

/-- The test `isfinite`. -/
def isfinite : FloatVal → Bool
  | .fin _ => true
  | _ => false

/-- The literal `.5`. -/
def half : FloatVal := .fin (1 / 2)

/-- Floating-point addition.  The special values follow IEEE 754; the exact sum of two
finite operands is delivered through `rnd`, the rounding of the type (which may
overflow to an infinity). -/
def add (rnd : ℚ → FloatVal) : FloatVal → FloatVal → FloatVal
  | .nan, _ => .nan
  | _, .nan => .nan
  | .inf s, .inf s' => if s = s' then .inf s else .nan
  | .inf s, .fin _ => .inf s
  | .fin _, .inf s => .inf s
  | .fin x, .fin y => rnd (x + y)

/-- Floating-point multiplication.  The special values follow IEEE 754; the exact
product of two finite operands is delivered through `rnd`. -/
def mul (rnd : ℚ → FloatVal) : FloatVal → FloatVal → FloatVal
  | .nan, _ => .nan
  | _, .nan => .nan
  | .inf s, .inf s' => .inf (xor s s')
  | .inf s, .fin y => if y = 0 then .nan else .inf (xor s (decide (y < 0)))
  | .fin x, .inf s => if x = 0 then .nan else .inf (xor (decide (x < 0)) s)
  | .fin x, .fin y => rnd (x * y)

/-- The floating-point overload:
`_Float __t = __a + __b; return isfinite(__t)?__t*.5:__a*.5+__b*.5;`. -/
def midpoint (rnd : ℚ → FloatVal) (a b : FloatVal) : FloatVal :=
  let t := add rnd a b
  if isfinite t then mul rnd t half else add rnd (mul rnd a half) (mul rnd b half)

end Floating

/-! ## Binary formats and round to nearest -/

/-- A binary floating-point format: the precision `prec` (significand bits, the
implicit one included) and the greatest exponent `emax`; the least exponent of a
normal number is `1 - emax`. -/
structure Fmt where
  prec : Nat
  emax : Int
  deriving DecidableEq

/-- Exponent of the least normal number. -/
def Fmt.emin (f : Fmt) : Int := 1 - f.emax

/-- Exponent of the last place of the subnormal numbers (and of the least binade). -/
def Fmt.qmin (f : Fmt) : Int := f.emin - f.prec + 1

/-- Exponent of the last place of the greatest binade. -/
def Fmt.qmax (f : Fmt) : Int := f.emax - f.prec + 1

/-- The greatest finite value, `(2 ^ prec - 1) * 2 ^ (emax - prec + 1)`. -/
def Fmt.maxFinite (f : Fmt) : ℚ := ((2 : ℚ) ^ f.prec - 1) * (2 : ℚ) ^ f.qmax

/-- Rounding of a rational to the nearest integer, ties to the even one. -/
def roundHalfEven (x : ℚ) : Int :=
  if x - ⌊x⌋ < 1 / 2 then ⌊x⌋
  else if 1 / 2 < x - ⌊x⌋ then ⌊x⌋ + 1
  else if ⌊x⌋ % 2 = 0 then ⌊x⌋ else ⌊x⌋ + 1

/-- Exponent of the last place at which `x` is rounded. -/
def Fmt.quantum (f : Fmt) (x : ℚ) : Int :=
  max (Int.log 2 |x| - f.prec + 1) f.qmin

/-- Rounding of `x` to a multiple of `2 ^ q`. -/
def roundTo (q : Int) (x : ℚ) : ℚ :=
  (roundHalfEven (x / (2 : ℚ) ^ q) : ℚ) * (2 : ℚ) ^ q

/-- The rounding of the arithmetic of a format, round to nearest with ties to even:
the exact result `x` is rounded at the last place of its binade (at the subnormal last
place below the least binade) and becomes an infinity of its sign when the rounded
magnitude exceeds the greatest finite value.  Each `+` and `*` of the overload is
rounded this way in the format of its operands. -/
def Fmt.rne (f : Fmt) (x : ℚ) : FloatVal :=
  if f.maxFinite < |roundTo (f.quantum x) x| then .inf (decide (x < 0))
  else .fin (roundTo (f.quantum x) x)

/-- The rational `x` is a finite value of the format: an integer significand of at
most `prec` bits times a power of two between the least and the greatest last place
(subnormal numbers and zero included). -/
def Fmt.holds (f : Fmt) (x : ℚ) : Prop :=
  ∃ m e : Int, |m| < (2 : Int) ^ f.prec ∧ f.qmin ≤ e ∧ e ≤ f.qmax ∧ x = (m : ℚ) * (2 : ℚ) ^ e

/-- The formats considered: at least two significand bits and `emax` at least 2 (every
IEEE 754 binary format qualifies). -/
def Fmt.valid (f : Fmt) : Prop :=
  2 ≤ f.prec ∧ 2 ≤ f.emax

instance (f : Fmt) : Decidable f.valid := by
  unfold Fmt.valid
  exact inferInstance

/-- The format of `float` (IEEE 754 binary32). -/
def binary32 : Fmt := ⟨24, 127⟩

/-- The format of `double` (IEEE 754 binary64). -/
def binary64 : Fmt := ⟨53, 1023⟩

/-! ## Arithmetic facts shared by the proofs -/

theorem two_pow_pred (N : Nat) (h : 1 ≤ N) : (2 : Int) ^ N = 2 * (2 : Int) ^ (N - 1) := by
  obtain ⟨k, rfl⟩ : ∃ k, N = k + 1 := ⟨N - 1, by omega⟩
  simp [pow_succ, mul_comm]

theorem two_pow_pos (N : Nat) : (0 : Int) < (2 : Int) ^ N := by positivity

theorem two_pow_mono {m n : Nat} (h : m ≤ n) : (2 : Int) ^ m ≤ (2 : Int) ^ n :=
  pow_le_pow_right₀ (by norm_num) h

/-- A value inside the signed `W`-bit range is unchanged by conversion to that type. -/
theorem toSigned_of_fits (W : Nat) (x : Int) (hW : 1 ≤ W)
    (h1 : -(2 : Int) ^ (W - 1) ≤ x) (h2 : x < (2 : Int) ^ (W - 1)) : toSigned W x = x := by
  unfold toSigned
  have hp := two_pow_pred W hW
  rw [Int.emod_eq_of_lt (by linarith) (by linarith)]
  ring

/-- A value inside the unsigned `W`-bit range is unchanged by conversion to that type. -/
theorem toUnsigned_of_fits (W : Nat) (x : Int)
    (h1 : 0 ≤ x) (h2 : x < (2 : Int) ^ W) : toUnsigned W x = x := by
  unfold toUnsigned
  exact Int.emod_eq_of_lt h1 h2

/-- Conversion to the type `t` does not change a value of `t`. -/
theorem convert_of_holds (t : IntType) (x : Int) (hN : 1 ≤ t.bits) (hx : t.holds x) :
    t.convert x = x := by
  unfold IntType.holds IntType.minVal IntType.maxVal at hx
  unfold IntType.convert
  cases hs : t.isSigned <;> simp only [hs, if_true, if_false, Bool.false_eq_true] at hx ⊢
  · exact toUnsigned_of_fits _ _ hx.1 (by linarith [hx.2])
  · exact toSigned_of_fits _ _ hN hx.1 (by linarith [hx.2])

/-- Every value of an `N`-bit type, signed or unsigned, has its double in
`[-2 ^ N, 2 ^ (N + 1) - 2]`; for a signed type the double is at most `2 ^ N - 2`. -/
theorem holds_bounds (t : IntType) (x : Int) (hN : 1 ≤ t.bits) (hx : t.holds x) :
    (t.isSigned = true ∧ -(2 : Int) ^ t.bits ≤ 2 * x ∧ 2 * x ≤ (2 : Int) ^ t.bits - 2) ∨
    (t.isSigned = false ∧ 0 ≤ x ∧ x ≤ (2 : Int) ^ t.bits - 1) := by
  unfold IntType.holds IntType.minVal IntType.maxVal at hx
  have hp := two_pow_pred t.bits hN
  cases hs : t.isSigned <;> simp only [hs, if_true, if_false, Bool.false_eq_true] at hx ⊢
  · right; exact ⟨trivial, hx.1, hx.2⟩
  · left; exact ⟨trivial, by linarith [hx.1], by linarith [hx.2]⟩

/-- The exact value of `a + b + (a > b)` lies in the signed `(N + 2)`-bit range. -/
theorem exactSum_bounds (t : IntType) (a b : Int) (hN : 1 ≤ t.bits)
    (ha : t.holds a) (hb : t.holds b) :
    -(2 : Int) ^ (t.bits + 1) ≤ a + b ∧ a + b ≤ (2 : Int) ^ (t.bits + 1) - 1 ∧
    -(2 : Int) ^ (t.bits + 1) ≤ exactSum a b ∧ exactSum a b ≤ (2 : Int) ^ (t.bits + 1) - 1 := by
  have hp : (2 : Int) ^ (t.bits + 1) = 2 * (2 : Int) ^ t.bits := by rw [pow_succ]; ring
  have hq := two_pow_pos t.bits
  unfold exactSum
  rcases holds_bounds t a hN ha with ⟨hs, ha1, ha2⟩ | ⟨hs, ha1, ha2⟩ <;>
  rcases holds_bounds t b hN hb with ⟨hs', hb1, hb2⟩ | ⟨hs', hb1, hb2⟩ <;>
  first
  | (exfalso; rw [hs] at hs'; exact Bool.noConfusion hs')
  | (split_ifs with hab <;> refine ⟨?_, ?_, ?_, ?_⟩ <;> omega)

/-- In a signed type wide enough for `[-2 ^ (N + 1), 2 ^ (N + 1))` the widened
expression takes its exact value. -/
theorem widened_eq_exactSum (t : IntType) (W : Nat) (a b : Int) (hN : 1 ≤ t.bits)
    (hW : t.bits + 2 ≤ W) (ha : t.holds a) (hb : t.holds b) :
    widened W a b = exactSum a b := by
  obtain ⟨h1, h2, h3, h4⟩ := exactSum_bounds t a b hN ha hb
  have hm : (2 : Int) ^ (t.bits + 1) ≤ (2 : Int) ^ (W - 1) := two_pow_mono (by omega)
  have hp : (2 : Int) ^ (t.bits + 1) = 2 * (2 : Int) ^ t.bits := by rw [pow_succ]; ring
  have hq := two_pow_pos t.bits
  have hW1 : 1 ≤ W := by omega
  have hA : toSigned W a = a := by
    apply toSigned_of_fits W a hW1
    · rcases holds_bounds t a hN ha with ⟨_, x1, x2⟩ | ⟨_, x1, x2⟩ <;> omega
    · rcases holds_bounds t a hN ha with ⟨_, x1, x2⟩ | ⟨_, x1, x2⟩ <;> omega
  have hB : toSigned W b = b := by
    apply toSigned_of_fits W b hW1
    · rcases holds_bounds t b hN hb with ⟨_, x1, x2⟩ | ⟨_, x1, x2⟩ <;> omega
    · rcases holds_bounds t b hN hb with ⟨_, x1, x2⟩ | ⟨_, x1, x2⟩ <;> omega
  have hC : toSigned W (if a > b then 1 else 0) = (if a > b then 1 else 0) := by
    apply toSigned_of_fits W _ hW1 <;> split_ifs <;> omega
  have hAB : toSigned W (a + b) = a + b := toSigned_of_fits W _ hW1 (by omega) (by omega)
  unfold widened
  rw [hA, hB, hC, hAB]
  exact toSigned_of_fits W _ hW1 (by unfold exactSum at h3; omega) (by unfold exactSum at h4; omega)

/-- Half of `a + b + (a > b)`, rounded down, lies between `a` and `b`. -/
theorem half_between (a b : Int) :
    min a b ≤ exactSum a b / 2 ∧ exactSum a b / 2 ≤ max a b := by
  unfold exactSum
  split_ifs with h
  · rw [min_eq_right (by omega), max_eq_left (by omega)]; omega
  · rw [min_eq_left (by omega), max_eq_right (by omega)]; omega

/-- A value between two values of the type is a value of the type. -/
theorem holds_of_between (t : IntType) (a b x : Int) (ha : t.holds a) (hb : t.holds b)
    (h1 : min a b ≤ x) (h2 : x ≤ max a b) : t.holds x := by
  unfold IntType.holds at *
  rcases le_total a b with h | h
  · rw [min_eq_left h] at h1; rw [max_eq_right h] at h2; omega
  · rw [min_eq_right h] at h1; rw [max_eq_left h] at h2; omega

/-- The integer overload returns the floor of half the exact `a + b + (a > b)`. -/
theorem midpoint_eq_half (t : IntType) (a b : Int) (hN : 1 ≤ t.bits)
    (hS : t.bits ≤ 8 * t.sizeof) (ha : t.holds a) (hb : t.holds b) :
    Integral.midpoint t a b = exactSum a b / 2 := by
  unfold Integral.midpoint
  rw [widened_eq_exactSum t t.wideBits a b hN (by unfold IntType.wideBits; omega) ha hb,
    Int.shiftRight_eq_div_pow]
  have hb2 := half_between a b
  simpa using convert_of_holds t _ hN (holds_of_between t a b _ ha hb hb2.1 hb2.2)

/-- Truncating division by two, in terms of flooring division. -/
theorem tdiv_two (d : Int) : Int.tdiv d 2 = if 0 ≤ d then d / 2 else -((-d) / 2) := by
  split_ifs with h
  · exact Int.tdiv_eq_ediv h (by norm_num)
  · have h1 : Int.tdiv (-d) 2 = (-d) / 2 := Int.tdiv_eq_ediv (by omega) (by norm_num)
    rw [← h1, Int.neg_tdiv, neg_neg]

/-- The distance of two pointers into an array whose length fits the signed `W`-bit
difference type fits that type, so taking it in `W` bits is exact. -/
theorem distance_exact (W len : Nat) (a b : Int) (hW : 1 ≤ W) (hlen : fitsSigned W len)
    (ha : validIndex len a) (hb : validIndex len b) :
    fitsSigned W (b - a) ∧ Pointer.distance W a b = b - a := by
  unfold fitsSigned at hlen ⊢
  unfold validIndex at ha hb
  have hfit : -(2 : Int) ^ (W - 1) ≤ b - a ∧ b - a ≤ (2 : Int) ^ (W - 1) - 1 := by
    constructor <;> omega
  exact ⟨hfit, toSigned_of_fits W _ hW hfit.1 (by omega)⟩

/-- The least value of a type is a value of the type. -/
theorem holds_minVal (t : IntType) : t.holds t.minVal := by
  have hp := two_pow_pos (t.bits - 1)
  have hq := two_pow_pos t.bits
  unfold IntType.holds IntType.minVal IntType.maxVal
  cases t.isSigned <;> simp <;> omega

/-- The greatest value of a type is a value of the type. -/
theorem holds_maxVal (t : IntType) : t.holds t.maxVal := by
  have hp := two_pow_pos (t.bits - 1)
  have hq := two_pow_pos t.bits
  unfold IntType.holds IntType.minVal IntType.maxVal
  cases t.isSigned <;> simp <;> omega

/-- Every integer in `[0, 127]` is a value of every type of width at least 8. -/
theorem holds_small (t : IntType) (x : Int) (hN : 8 ≤ t.bits) (h0 : 0 ≤ x) (h1 : x ≤ 127) :
    t.holds x := by
  have hp : (2 : Int) ^ 7 ≤ (2 : Int) ^ (t.bits - 1) := two_pow_mono (by omega)
  have hq : (2 : Int) ^ 7 ≤ (2 : Int) ^ t.bits := two_pow_mono (by omega)
  norm_num at hp hq
  unfold IntType.holds IntType.minVal IntType.maxVal
  cases t.isSigned <;> simp <;> omega

/-- The pointer overload computes the same index as the integer rule
`floor((a + b + (a > b)) / 2)`. -/
theorem pointer_midpoint_eq_half (W len : Nat) (a b : Int) (hW : 1 ≤ W)
    (hlen : fitsSigned W len) (ha : validIndex len a) (hb : validIndex len b) :
    Pointer.midpoint W a b = exactSum a b / 2 := by
  unfold Pointer.midpoint
  rw [(distance_exact W len a b hW hlen ha hb).2, tdiv_two]
  unfold exactSum
  split_ifs <;> omega

/-- The floor of the exact mean of two integers, by integer division. -/
theorem floor_mean (a b : Int) : ⌊((a : ℚ) + (b : ℚ)) / 2⌋ = (a + b) / 2 := by
  have h : (a : ℚ) + (b : ℚ) = ((a + b : Int) : ℚ) := by push_cast; ring
  rw [h]
  simpa using Rat.floor_intCast_div_natCast (a + b) 2

/-- The ceiling of the exact mean of two integers, by integer division. -/
theorem ceil_mean (a b : Int) : ⌈((a : ℚ) + (b : ℚ)) / 2⌉ = -((-(a + b)) / 2) := by
  have h1 : ⌈((a : ℚ) + (b : ℚ)) / 2⌉ = -⌊-(((a : ℚ) + (b : ℚ)) / 2)⌋ := by
    rw [Int.floor_neg, neg_neg]
  have h2 : -(((a : ℚ) + (b : ℚ)) / 2) = ((-(a + b) : Int) : ℚ) / 2 := by push_cast; ring
  rw [h1, h2]
  congr 1
  simpa using Rat.floor_intCast_div_natCast (-(a + b)) 2

/-! ## The integer overload -/

/-- C1: for every integer type of width `N ≥ 8` (signed or unsigned, stored in
`sizeof` bytes of 8 bits) and all values `a`, `b` of the type, `midpoint(a, b)` is the
exact mean `(a + b) / 2` rounded toward `a`: its floor when `a ≤ b`, its ceiling when
`a > b`. -/
theorem midpoint_eq_mean_rounded_toward_a (t : IntType) (a b : Int) (hN : 8 ≤ t.bits)
    (hS : t.bits ≤ 8 * t.sizeof) (ha : t.holds a) (hb : t.holds b) :
    Integral.midpoint t a b =
      if a ≤ b then ⌊((a : ℚ) + (b : ℚ)) / 2⌋ else ⌈((a : ℚ) + (b : ℚ)) / 2⌉ := by
  rw [midpoint_eq_half t a b (by omega) hS ha hb]
  have hfl : ∀ n : Int, ⌊(n : ℚ) / 2⌋ = n / 2 := fun n => by
    simpa using Rat.floor_intCast_div_natCast n 2
  have hcl : ∀ n : Int, ⌈(n : ℚ) / 2⌉ = -((-n) / 2) := fun n => by
    have h1 : ⌈(n : ℚ) / 2⌉ = -⌊-((n : ℚ) / 2)⌋ := by rw [Int.floor_neg, neg_neg]
    have h2 : -((n : ℚ) / 2) = ((-n : Int) : ℚ) / 2 := by push_cast; ring
    rw [h1, h2, hfl]
  have hsum : (a : ℚ) + (b : ℚ) = ((a + b : Int) : ℚ) := by push_cast; ring
  rw [hsum, hfl, hcl]
  unfold exactSum
  split_ifs <;> omega

theorem midpoint_eq_mean_rounded_toward_a_witness :
    Integral.midpoint int8 127 (-128) =
      if (127 : Int) ≤ -128 then ⌊(((127 : Int) : ℚ) + ((-128 : Int) : ℚ)) / 2⌋
      else ⌈(((127 : Int) : ℚ) + ((-128 : Int) : ℚ)) / 2⌉ :=
  midpoint_eq_mean_rounded_toward_a int8 127 (-128) (by decide) (by decide) (by decide)
    (by decide)

/-- C2: for all values `a`, `b` of an `N`-bit type (signed or unsigned), the exact
`a + b + (a > b)` lies in `[-2 ^ (N + 1), 2 ^ (N + 1) - 1]`, the range of a signed
`(N + 2)`-bit integer, and evaluating it with wrap-around in `N + 2` bits, or in any
wider signed type, gives the exact value. -/
theorem widened_sum_never_overflows (t : IntType) (a b : Int) (hN : 1 ≤ t.bits)
    (ha : t.holds a) (hb : t.holds b) :
    fitsSigned (t.bits + 2) (exactSum a b) ∧
    widened (t.bits + 2) a b = exactSum a b ∧
    ∀ W : Nat, t.bits + 2 ≤ W → widened W a b = exactSum a b := by
  obtain ⟨_, _, h3, h4⟩ := exactSum_bounds t a b hN ha hb
  refine ⟨⟨by simpa using h3, by simpa using h4⟩,
    widened_eq_exactSum t _ a b hN le_rfl ha hb,
    fun W hW => widened_eq_exactSum t W a b hN hW ha hb⟩

theorem widened_sum_never_overflows_witness :
    fitsSigned (int8.bits + 2) (exactSum 127 (-128)) ∧
    widened (int8.bits + 2) 127 (-128) = exactSum 127 (-128) ∧
    ∀ W : Nat, int8.bits + 2 ≤ W → widened W 127 (-128) = exactSum 127 (-128) :=
  widened_sum_never_overflows int8 127 (-128) (by decide) (by decide) (by decide)

/-- C3: for all values `a`, `b` of an `N`-bit type, the widened `a + b + (a > b)`
shifted right by one is the exact half, lies between `min a b` and `max a b`, is
therefore a value of the type, and is unchanged by the conversion back to `N` bits. -/
theorem narrowing_loses_nothing (t : IntType) (a b : Int) (hN : 1 ≤ t.bits)
    (hS : t.bits ≤ 8 * t.sizeof) (ha : t.holds a) (hb : t.holds b) :
    widened t.wideBits a b >>> (1 : Nat) = exactSum a b >>> (1 : Nat) ∧
    min a b ≤ exactSum a b >>> (1 : Nat) ∧
    exactSum a b >>> (1 : Nat) ≤ max a b ∧
    t.holds (exactSum a b >>> (1 : Nat)) ∧
    t.convert (exactSum a b >>> (1 : Nat)) = exactSum a b >>> (1 : Nat) := by
  have hw := widened_eq_exactSum t t.wideBits a b hN (by unfold IntType.wideBits; omega) ha hb
  have hsh : exactSum a b >>> (1 : Nat) = exactSum a b / 2 := by
    rw [Int.shiftRight_eq_div_pow]; simp
  have hb2 := half_between a b
  have hh := holds_of_between t a b _ ha hb hb2.1 hb2.2
  rw [hw, hsh]
  exact ⟨rfl, hb2.1, hb2.2, hh, convert_of_holds t _ hN hh⟩

theorem narrowing_loses_nothing_witness :
    widened uint8.wideBits 255 0 >>> (1 : Nat) = exactSum 255 0 >>> (1 : Nat) ∧
    min 255 0 ≤ exactSum 255 0 >>> (1 : Nat) ∧
    exactSum 255 0 >>> (1 : Nat) ≤ max 255 0 ∧
    uint8.holds (exactSum 255 0 >>> (1 : Nat)) ∧
    uint8.convert (exactSum 255 0 >>> (1 : Nat)) = exactSum 255 0 >>> (1 : Nat) :=
  narrowing_loses_nothing uint8 255 0 (by decide) (by decide) (by decide) (by decide)

/-- C9: for all values `a`, `b` of an `N`-bit type, `midpoint(a, b) + midpoint(b, a)`,
added as exact integers, equals `a + b`; when `a + b` is odd exactly one of the two
results is the mean rounded up and the other the mean rounded down. -/
theorem midpoint_swap_sum (t : IntType) (a b : Int) (hN : 1 ≤ t.bits)
    (hS : t.bits ≤ 8 * t.sizeof) (ha : t.holds a) (hb : t.holds b) :
    Integral.midpoint t a b + Integral.midpoint t b a = a + b ∧
    ((a + b) % 2 = 1 →
      (2 * Integral.midpoint t a b = a + b + 1 ∧ 2 * Integral.midpoint t b a = a + b - 1) ∨
      (2 * Integral.midpoint t a b = a + b - 1 ∧ 2 * Integral.midpoint t b a = a + b + 1)) := by
  rw [midpoint_eq_half t a b hN hS ha hb, midpoint_eq_half t b a hN hS hb ha]
  unfold exactSum
  constructor
  · split_ifs <;> omega
  · intro hodd
    split_ifs <;> omega

theorem midpoint_swap_sum_witness :
    Integral.midpoint int8 (-128) 127 + Integral.midpoint int8 127 (-128) = -128 + 127 ∧
    ((-128 + 127 : Int) % 2 = 1 →
      (2 * Integral.midpoint int8 (-128) 127 = -128 + 127 + 1 ∧
        2 * Integral.midpoint int8 127 (-128) = -128 + 127 - 1) ∨
      (2 * Integral.midpoint int8 (-128) 127 = -128 + 127 - 1 ∧
        2 * Integral.midpoint int8 127 (-128) = -128 + 127 + 1)) :=
  midpoint_swap_sum int8 (-128) 127 (by decide) (by decide) (by decide) (by decide)

/-- C10: for every value `a` of an `N`-bit type (signed or unsigned),
`midpoint(a, a) == a`; in particular for `MIN` and for `MAX`. -/
theorem midpoint_self (t : IntType) (a : Int) (hN : 1 ≤ t.bits)
    (hS : t.bits ≤ 8 * t.sizeof) (ha : t.holds a) :
    Integral.midpoint t a a = a ∧
    Integral.midpoint t t.minVal t.minVal = t.minVal ∧
    Integral.midpoint t t.maxVal t.maxVal = t.maxVal := by
  have key : ∀ x : Int, t.holds x → Integral.midpoint t x x = x := fun x hx => by
    rw [midpoint_eq_half t x x hN hS hx hx]
    unfold exactSum
    simp only [gt_iff_lt, lt_self_iff_false, if_false]
    omega
  have hp := two_pow_pos (t.bits - 1)
  have hq := two_pow_pos t.bits
  have hmin : t.holds t.minVal := by
    unfold IntType.holds IntType.minVal IntType.maxVal
    cases t.isSigned <;> simp <;> omega
  have hmax : t.holds t.maxVal := by
    unfold IntType.holds IntType.minVal IntType.maxVal
    cases t.isSigned <;> simp <;> omega
  exact ⟨key a ha, key _ hmin, key _ hmax⟩

theorem midpoint_self_witness :
    Integral.midpoint int32 (-7) (-7) = -7 ∧
    Integral.midpoint int32 int32.minVal int32.minVal = int32.minVal ∧
    Integral.midpoint int32 int32.maxVal int32.maxVal = int32.maxVal :=
  midpoint_self int32 (-7) (by decide) (by decide) (by decide)

/-- C11 (amended): for every unsigned `N`-bit type, `midpoint(UINT_MAX, 0)` is
`UINT_MAX/2 + 1 = 2 ^ (N - 1)`, one more than the truncating quotient
`UINT_MAX/2 = 2 ^ (N - 1) - 1`: the sum is odd and `a > b`, so the mean is rounded up
toward `a`. -/
theorem midpoint_umax_zero (t : IntType) (hU : t.isSigned = false) (hN : 1 ≤ t.bits)
    (hS : t.bits ≤ 8 * t.sizeof) :
    Int.tdiv t.maxVal 2 = (2 : Int) ^ (t.bits - 1) - 1 ∧
    Integral.midpoint t t.maxVal 0 = Int.tdiv t.maxVal 2 + 1 ∧
    Integral.midpoint t t.maxVal 0 = (2 : Int) ^ (t.bits - 1) := by
  have h0 : t.holds 0 := by
    have hq := two_pow_pos t.bits
    unfold IntType.holds IntType.minVal IntType.maxVal
    simp [hU]
    omega
  have hm := midpoint_eq_half t t.maxVal 0 hN hS (holds_maxVal t) h0
  have hp := two_pow_pred t.bits hN
  have hq := two_pow_pos (t.bits - 1)
  have hv : t.maxVal = (2 : Int) ^ t.bits - 1 := by unfold IntType.maxVal; simp [hU]
  rw [hm, tdiv_two, hv]
  unfold exactSum
  refine ⟨?_, ?_, ?_⟩ <;> split_ifs <;> omega

theorem midpoint_umax_zero_witness :
    Int.tdiv uint32.maxVal 2 = (2 : Int) ^ (uint32.bits - 1) - 1 ∧
    Integral.midpoint uint32 uint32.maxVal 0 = Int.tdiv uint32.maxVal 2 + 1 ∧
    Integral.midpoint uint32 uint32.maxVal 0 = (2 : Int) ^ (uint32.bits - 1) :=
  midpoint_umax_zero uint32 (by decide) (by decide) (by decide)

/-- C11 as stated fails: for the 32-bit `unsigned int`, `midpoint(UINT_MAX, 0)` is
`2147483648`, not `UINT_MAX/2 = 2147483647`. -/
theorem midpoint_umax_zero_ne_half :
    Integral.midpoint uint32 uint32.maxVal 0 = 2147483648 ∧
    Int.tdiv uint32.maxVal 2 = 2147483647 ∧
    Integral.midpoint uint32 uint32.maxVal 0 ≠ Int.tdiv uint32.maxVal 2 := by
  decide

/-- C12: for every signed `N`-bit type, `midpoint(MIN, MAX) == -1`; the widened sum
`MIN + MAX + (MIN > MAX)` is evaluated without wrap-around and is `-1`. -/
theorem midpoint_min_max (t : IntType) (hSg : t.isSigned = true) (hN : 1 ≤ t.bits)
    (hS : t.bits ≤ 8 * t.sizeof) :
    widened t.wideBits t.minVal t.maxVal = t.minVal + t.maxVal ∧
    t.minVal + t.maxVal = -1 ∧
    Integral.midpoint t t.minVal t.maxVal = -1 := by
  have hw := widened_eq_exactSum t t.wideBits t.minVal t.maxVal hN
    (by unfold IntType.wideBits; omega) (holds_minVal t) (holds_maxVal t)
  have hm := midpoint_eq_half t t.minVal t.maxVal hN hS (holds_minVal t) (holds_maxVal t)
  have hq := two_pow_pos (t.bits - 1)
  have hlo : t.minVal = -(2 : Int) ^ (t.bits - 1) := by unfold IntType.minVal; simp [hSg]
  have hhi : t.maxVal = (2 : Int) ^ (t.bits - 1) - 1 := by unfold IntType.maxVal; simp [hSg]
  rw [hw, hm, hlo, hhi]
  unfold exactSum
  refine ⟨?_, ?_, ?_⟩
  · split_ifs <;> omega
  · omega
  · split_ifs <;> omega

theorem midpoint_min_max_witness :
    widened int32.wideBits int32.minVal int32.maxVal = int32.minVal + int32.maxVal ∧
    int32.minVal + int32.maxVal = -1 ∧
    Integral.midpoint int32 int32.minVal int32.maxVal = -1 :=
  midpoint_min_max int32 (by decide) (by decide) (by decide)

/-- C14: for every integer type of width at least 8, `midpoint(0, 11) == 5` (odd sum,
`a < b`, rounded down toward `a`), and on the even sums `midpoint(0, 10) == 5` and
`midpoint(10, 0) == 5`. -/
theorem midpoint_zero_eleven (t : IntType) (hN : 8 ≤ t.bits) (hS : t.bits ≤ 8 * t.sizeof) :
    Integral.midpoint t 0 11 = 5 ∧
    Integral.midpoint t 0 10 = 5 ∧
    Integral.midpoint t 10 0 = 5 := by
  have h0 := holds_small t 0 hN (by norm_num) (by norm_num)
  have h10 := holds_small t 10 hN (by norm_num) (by norm_num)
  have h11 := holds_small t 11 hN (by norm_num) (by norm_num)
  have hN1 : 1 ≤ t.bits := by omega
  rw [midpoint_eq_half t 0 11 hN1 hS h0 h11, midpoint_eq_half t 0 10 hN1 hS h0 h10,
    midpoint_eq_half t 10 0 hN1 hS h10 h0]
  unfold exactSum
  refine ⟨?_, ?_, ?_⟩ <;> decide

theorem midpoint_zero_eleven_witness :
    Integral.midpoint uint8 0 11 = 5 ∧
    Integral.midpoint uint8 0 10 = 5 ∧
    Integral.midpoint uint8 10 0 = 5 :=
  midpoint_zero_eleven uint8 (by decide) (by decide)

/-- C15: for all values `a`, `b` of an `N`-bit type, `midpoint(a, b) == midpoint(b, a)`
if and only if `a == b` or the exact sum `a + b` is even; when `a + b` is odd the two
results differ by exactly 1. -/
theorem midpoint_commutes_iff_even (t : IntType) (a b : Int) (hN : 1 ≤ t.bits)
    (hS : t.bits ≤ 8 * t.sizeof) (ha : t.holds a) (hb : t.holds b) :
    (Integral.midpoint t a b = Integral.midpoint t b a ↔ (a = b ∨ (a + b) % 2 = 0)) ∧
    ((a + b) % 2 = 1 → |Integral.midpoint t a b - Integral.midpoint t b a| = 1) := by
  rw [midpoint_eq_half t a b hN hS ha hb, midpoint_eq_half t b a hN hS hb ha]
  unfold exactSum
  refine ⟨⟨fun h => ?_, fun h => ?_⟩, fun h => ?_⟩
  · split_ifs at h <;> omega
  · split_ifs <;> omega
  · rw [abs_eq (by norm_num)]
    split_ifs <;> omega

theorem midpoint_commutes_iff_even_witness :
    (Integral.midpoint int8 (-128) 127 = Integral.midpoint int8 127 (-128) ↔
      ((-128 : Int) = 127 ∨ (-128 + 127 : Int) % 2 = 0)) ∧
    ((-128 + 127 : Int) % 2 = 1 →
      |Integral.midpoint int8 (-128) 127 - Integral.midpoint int8 127 (-128)| = 1) :=
  midpoint_commutes_iff_even int8 (-128) 127 (by decide) (by decide) (by decide) (by decide)

/-- C18: integer midpoint is monotone in each argument: for values `a`, `a2`, `b`, `b2`
of an `N`-bit type, `a ≤ a2` gives `midpoint(a, b) ≤ midpoint(a2, b)` and `b ≤ b2`
gives `midpoint(a, b) ≤ midpoint(a, b2)`, whichever way the rounding bit `a > b`
falls in the two calls. -/
theorem midpoint_monotone (t : IntType) (a a2 b b2 : Int) (hN : 1 ≤ t.bits)
    (hS : t.bits ≤ 8 * t.sizeof) (ha : t.holds a) (ha2 : t.holds a2) (hb : t.holds b)
    (hb2 : t.holds b2) :
    (a ≤ a2 → Integral.midpoint t a b ≤ Integral.midpoint t a2 b) ∧
    (b ≤ b2 → Integral.midpoint t a b ≤ Integral.midpoint t a b2) := by
  rw [midpoint_eq_half t a b hN hS ha hb, midpoint_eq_half t a2 b hN hS ha2 hb,
    midpoint_eq_half t a b2 hN hS ha hb2]
  unfold exactSum
  constructor
  · intro h
    split_ifs <;> omega
  · intro h
    split_ifs <;> omega

theorem midpoint_monotone_witness :
    ((3 : Int) ≤ 4 → Integral.midpoint int8 3 3 ≤ Integral.midpoint int8 4 3) ∧
    ((3 : Int) ≤ 4 → Integral.midpoint int8 3 3 ≤ Integral.midpoint int8 3 4) :=
  midpoint_monotone int8 3 4 3 4 (by decide) (by decide) (by decide) (by decide) (by decide)
    (by decide)

/-- C19: integer midpoint is translation invariant: when `a`, `b`, `a + c` and `b + c`
are all values of the same `N`-bit type, `midpoint(a + c, b + c) == midpoint(a, b) + c`. -/
theorem midpoint_translate (t : IntType) (a b c : Int) (hN : 1 ≤ t.bits)
    (hS : t.bits ≤ 8 * t.sizeof) (ha : t.holds a) (hb : t.holds b) (hac : t.holds (a + c))
    (hbc : t.holds (b + c)) :
    Integral.midpoint t (a + c) (b + c) = Integral.midpoint t a b + c := by
  rw [midpoint_eq_half t a b hN hS ha hb, midpoint_eq_half t (a + c) (b + c) hN hS hac hbc]
  unfold exactSum
  split_ifs <;> omega

theorem midpoint_translate_witness :
    Integral.midpoint int8 (-128 + 254) (-127 + 254) = Integral.midpoint int8 (-128) (-127) + 254 :=
  midpoint_translate int8 (-128) (-127) 254 (by decide) (by decide) (by decide) (by decide)
    (by decide) (by decide)

/-! ## The pointer overload -/

/-- C4: for element indices `a`, `b` into one array whose length fits the signed
difference type, `midpoint(a, b) = a + trunc((b - a) / 2)`, the quotient being the
distance halved toward zero; when the distance is even the result is exactly
`(a + b) / 2`; when it is odd the result is one of the two indices next to the exact
mean, the one nearer to `a`: `|result - a| = |result - b| - 1`. -/
theorem pointer_midpoint_halfway_toward_a (W len : Nat) (a b : Int) (hW : 1 ≤ W)
    (hlen : fitsSigned W len) (ha : validIndex len a) (hb : validIndex len b) :
    Pointer.midpoint W a b = a + Int.tdiv (b - a) 2 ∧
    Int.tdiv (b - a) 2 = Int.sign (b - a) * (|b - a| / 2) ∧
    ((b - a) % 2 = 0 → 2 * Pointer.midpoint W a b = a + b) ∧
    ((b - a) % 2 = 1 →
      (2 * Pointer.midpoint W a b = a + b - 1 ∨ 2 * Pointer.midpoint W a b = a + b + 1) ∧
      |Pointer.midpoint W a b - a| = |Pointer.midpoint W a b - b| - 1) := by
  have hd := (distance_exact W len a b hW hlen ha hb).2
  have hm : Pointer.midpoint W a b = a + Int.tdiv (b - a) 2 := by
    unfold Pointer.midpoint; rw [hd]
  have ht := tdiv_two (b - a)
  refine ⟨hm, ?_, ?_, ?_⟩
  · rcases lt_trichotomy (b - a) 0 with h | h | h
    · rw [ht, Int.sign_eq_neg_one_of_neg h, abs_of_neg h, if_neg (by omega)]; ring
    · rw [h]; simp
    · rw [ht, Int.sign_eq_one_of_pos h, abs_of_pos h, if_pos (by omega)]; ring
  · intro he
    rw [hm, ht]
    split_ifs <;> omega
  · intro ho
    rw [hm, ht]
    split_ifs with h
    · refine ⟨by omega, ?_⟩
      rw [abs_of_nonneg (by omega), abs_of_nonpos (by omega)]
      omega
    · refine ⟨by omega, ?_⟩
      rw [abs_of_nonpos (by omega), abs_of_nonneg (by omega)]
      omega

theorem pointer_midpoint_halfway_toward_a_witness :
    Pointer.midpoint 64 10 3 = 10 + Int.tdiv (3 - 10) 2 ∧
    Int.tdiv (3 - 10) 2 = Int.sign (3 - 10) * (|3 - 10| / 2) ∧
    ((3 - 10 : Int) % 2 = 0 → 2 * Pointer.midpoint 64 10 3 = 10 + 3) ∧
    ((3 - 10 : Int) % 2 = 1 →
      (2 * Pointer.midpoint 64 10 3 = 10 + 3 - 1 ∨ 2 * Pointer.midpoint 64 10 3 = 10 + 3 + 1) ∧
      |Pointer.midpoint 64 10 3 - 10| = |Pointer.midpoint 64 10 3 - 3| - 1) :=
  pointer_midpoint_halfway_toward_a 64 10 10 3 (by decide) (by decide) (by decide) (by decide)

/-- C5: for element indices `a`, `b` with `0 ≤ a, b ≤ n`, where the array length `n`
fits the signed `W`-bit difference type, the distance `b - a` and its half fit that
type (so no step wraps), and the result lies between `min a b` and `max a b`; it is
again an index into, or one past the end of, the same array. -/
theorem pointer_midpoint_in_allocation (W len : Nat) (a b : Int) (hW : 1 ≤ W)
    (hlen : fitsSigned W len) (ha : validIndex len a) (hb : validIndex len b) :
    fitsSigned W (b - a) ∧
    Pointer.distance W a b = b - a ∧
    fitsSigned W (Int.tdiv (Pointer.distance W a b) 2) ∧
    min a b ≤ Pointer.midpoint W a b ∧
    Pointer.midpoint W a b ≤ max a b ∧
    validIndex len (Pointer.midpoint W a b) := by
  obtain ⟨hfit, hd⟩ := distance_exact W len a b hW hlen ha hb
  have ht := tdiv_two (b - a)
  have hbet : min a b ≤ a + Int.tdiv (b - a) 2 ∧ a + Int.tdiv (b - a) 2 ≤ max a b := by
    rw [ht]
    rcases le_total a b with h | h
    · rw [min_eq_left h, max_eq_right h, if_pos (by omega)]; omega
    · rw [min_eq_right h, max_eq_left h]
      split_ifs <;> omega
  unfold Pointer.midpoint
  rw [hd]
  refine ⟨hfit, rfl, ?_, hbet.1, hbet.2, ?_⟩
  · unfold fitsSigned at hfit ⊢
    rw [ht]
    split_ifs <;> constructor <;> omega
  · unfold validIndex at ha hb ⊢
    rcases le_total a b with h | h
    · rw [min_eq_left h, max_eq_right h] at hbet; omega
    · rw [min_eq_right h, max_eq_left h] at hbet; omega

theorem pointer_midpoint_in_allocation_witness :
    fitsSigned 8 (0 - 127) ∧
    Pointer.distance 8 127 0 = 0 - 127 ∧
    fitsSigned 8 (Int.tdiv (Pointer.distance 8 127 0) 2) ∧
    min 127 0 ≤ Pointer.midpoint 8 127 0 ∧
    Pointer.midpoint 8 127 0 ≤ max 127 0 ∧
    validIndex 127 (Pointer.midpoint 8 127 0) :=
  pointer_midpoint_in_allocation 8 127 127 0 (by decide) (by decide) (by decide) (by decide)

/-- C13: for every element index `p` and every `k ≥ 0` with `p` and `p + 2k` in the
same array, `midpoint(p, p + 2k) == p + k` and `midpoint(p + 2k, p) == p + k` (with
`k = 5`: `midpoint(p, p+10) == p+5 == midpoint(p+10, p)`), and `midpoint(p, p) == p`. -/
theorem pointer_midpoint_even_distance (W len : Nat) (p k : Int) (hW : 1 ≤ W)
    (hlen : fitsSigned W len) (hk : 0 ≤ k) (hp : validIndex len p)
    (hpk : validIndex len (p + 2 * k)) :
    Pointer.midpoint W p (p + 2 * k) = p + k ∧
    Pointer.midpoint W (p + 2 * k) p = p + k ∧
    Pointer.midpoint W p p = p := by
  rw [pointer_midpoint_eq_half W len p (p + 2 * k) hW hlen hp hpk,
    pointer_midpoint_eq_half W len (p + 2 * k) p hW hlen hpk hp,
    pointer_midpoint_eq_half W len p p hW hlen hp hp]
  unfold exactSum
  refine ⟨?_, ?_, ?_⟩ <;> split_ifs <;> omega

theorem pointer_midpoint_even_distance_witness :
    Pointer.midpoint 64 3 (3 + 2 * 5) = 3 + 5 ∧
    Pointer.midpoint 64 (3 + 2 * 5) 3 = 3 + 5 ∧
    Pointer.midpoint 64 3 3 = 3 :=
  pointer_midpoint_even_distance 64 20 3 5 (by decide) (by decide) (by decide) (by decide)
    (by decide)

/-- C16 (amended): for element indices `a`, `b` in one array at odd distance,
`midpoint(a, b) = a + trunc((b - a) / 2)` is the rounded-up mean `ceil((a + b) / 2)`
if and only if `a > b`, and the rounded-down mean `floor((a + b) / 2)` if and only if
`b > a`. -/
theorem pointer_midpoint_rounds_up_iff (W len : Nat) (a b : Int) (hW : 1 ≤ W)
    (hlen : fitsSigned W len) (ha : validIndex len a) (hb : validIndex len b)
    (hodd : (b - a) % 2 = 1) :
    (Pointer.midpoint W a b = ⌈((a : ℚ) + (b : ℚ)) / 2⌉ ↔ a > b) ∧
    (Pointer.midpoint W a b = ⌊((a : ℚ) + (b : ℚ)) / 2⌋ ↔ b > a) := by
  rw [pointer_midpoint_eq_half W len a b hW hlen ha hb, floor_mean, ceil_mean]
  unfold exactSum
  refine ⟨⟨fun h => ?_, fun h => ?_⟩, ⟨fun h => ?_, fun h => ?_⟩⟩
  · split_ifs at h <;> omega
  · rw [if_pos h]; omega
  · split_ifs at h <;> omega
  · split_ifs <;> omega

theorem pointer_midpoint_rounds_up_iff_witness :
    (Pointer.midpoint 64 0 3 = ⌈(((0 : Int) : ℚ) + ((3 : Int) : ℚ)) / 2⌉ ↔ (0 : Int) > 3) ∧
    (Pointer.midpoint 64 0 3 = ⌊(((0 : Int) : ℚ) + ((3 : Int) : ℚ)) / 2⌋ ↔ (3 : Int) > 0) :=
  pointer_midpoint_rounds_up_iff 64 10 0 3 (by decide) (by decide) (by decide) (by decide)
    (by decide)

/-- C16 as stated fails: the indices `0` and `3` are at odd distance with `b > a`,
yet `midpoint(0, 3)` is `1`, not the rounded-up mean `ceil(3 / 2) = 2`. -/
theorem pointer_midpoint_not_up_when_b_greater :
    (3 - 0 : Int) % 2 = 1 ∧
    Pointer.midpoint 64 0 3 = 1 ∧
    ⌈(((0 : Int) : ℚ) + ((3 : Int) : ℚ)) / 2⌉ = 2 ∧
    ¬ (Pointer.midpoint 64 0 3 = ⌈(((0 : Int) : ℚ) + ((3 : Int) : ℚ)) / 2⌉ ↔ (3 : Int) > 0) := by
  have hc : ⌈(((0 : Int) : ℚ) + ((3 : Int) : ℚ)) / 2⌉ = 2 := by rw [ceil_mean]; decide
  have hm : Pointer.midpoint 64 0 3 = 1 := by decide
  refine ⟨by decide, hm, hc, ?_⟩
  rw [hc, hm]
  decide

/-- C17 (amended): the address rule and the integer rule coincide: for all element
indices `a`, `b` within one array whose length fits the signed difference type,
`a + trunc((b - a) / 2)` equals `floor((a + b + (a > b)) / 2)`, and equals the integer
overload at every integer type that holds `a` and `b`. -/
theorem pointer_rule_agrees_with_integer_rule (W len : Nat) (a b : Int) (hW : 1 ≤ W)
    (hlen : fitsSigned W len) (ha : validIndex len a) (hb : validIndex len b) :
    Pointer.midpoint W a b = exactSum a b >>> (1 : Nat) ∧
    ∀ t : IntType, 1 ≤ t.bits → t.bits ≤ 8 * t.sizeof → t.holds a → t.holds b →
      Pointer.midpoint W a b = Integral.midpoint t a b := by
  have hp := pointer_midpoint_eq_half W len a b hW hlen ha hb
  refine ⟨?_, fun t hN hS hta htb => ?_⟩
  · rw [hp, Int.shiftRight_eq_div_pow]; simp
  · rw [hp, midpoint_eq_half t a b hN hS hta htb]

theorem pointer_rule_agrees_with_integer_rule_witness :
    Pointer.midpoint 64 3 0 = exactSum 3 0 >>> (1 : Nat) ∧
    ∀ t : IntType, 1 ≤ t.bits → t.bits ≤ 8 * t.sizeof → t.holds 3 → t.holds 0 →
      Pointer.midpoint 64 3 0 = Integral.midpoint t 3 0 :=
  pointer_rule_agrees_with_integer_rule 64 10 3 0 (by decide) (by decide) (by decide)
    (by decide)

/-- C17 as stated fails: no two element indices within one array whose length fits
the signed difference type make the address rule and the integer rule differ by one
element. -/
theorem pointer_and_integer_rules_never_differ :
    ¬ ∃ (W len : Nat) (a b : Int), 1 ≤ W ∧ fitsSigned W len ∧ validIndex len a ∧
      validIndex len b ∧ |Pointer.midpoint W a b - exactSum a b >>> (1 : Nat)| = 1 := by
  rintro ⟨W, len, a, b, hW, hlen, ha, hb, h⟩
  have hs : exactSum a b >>> (1 : Nat) = exactSum a b / 2 := by
    rw [Int.shiftRight_eq_div_pow]; simp
  rw [pointer_midpoint_eq_half W len a b hW hlen ha hb, hs, sub_self] at h
  norm_num at h

/-! ## Rounding to a binary format -/

theorem two_zpow_pos (q : Int) : (0 : ℚ) < (2 : ℚ) ^ q := zpow_pos (by norm_num) q

theorem two_zpow_le {m n : Int} (h : m ≤ n) : (2 : ℚ) ^ m ≤ (2 : ℚ) ^ n :=
  zpow_le_zpow_right₀ (by norm_num) h

theorem two_zpow_lt {m n : Int} (h : m < n) : (2 : ℚ) ^ m < (2 : ℚ) ^ n :=
  zpow_lt_zpow_right₀ (by norm_num) h

theorem two_zpow_succ (q : Int) : (2 : ℚ) ^ (q + 1) = 2 * (2 : ℚ) ^ q := by
  rw [zpow_add_one₀ (by norm_num)]; ring

theorem two_zpow_pred (q : Int) : (2 : ℚ) ^ (q - 1) = (2 : ℚ) ^ q / 2 := by
  rw [zpow_sub_one₀ (by norm_num)]; ring

/-- An integer below `x` is at most the rounding of `x`. -/
theorem le_roundHalfEven (n : Int) (x : ℚ) (h : (n : ℚ) ≤ x) : n ≤ roundHalfEven x := by
  have hf : n ≤ ⌊x⌋ := Int.le_floor.mpr h
  unfold roundHalfEven
  split_ifs <;> omega

/-- An integer above `x` is at least the rounding of `x`. -/
theorem roundHalfEven_le (n : Int) (x : ℚ) (h : x ≤ (n : ℚ)) : roundHalfEven x ≤ n := by
  rcases eq_or_lt_of_le h with heq | hlt
  · subst heq
    unfold roundHalfEven
    simp
  · have hf : ⌊x⌋ < n := Int.floor_lt.mpr hlt
    unfold roundHalfEven
    split_ifs <;> omega

/-- A multiple of `2 ^ q` below `x` is at most the rounding of `x` to such multiples. -/
theorem le_roundTo (q n : Int) (x : ℚ) (h : (n : ℚ) * (2 : ℚ) ^ q ≤ x) :
    (n : ℚ) * (2 : ℚ) ^ q ≤ roundTo q x := by
  have hp := two_zpow_pos q
  have h1 : (n : ℚ) ≤ x / (2 : ℚ) ^ q := (le_div_iff₀ hp).mpr h
  have h2 : ((n : Int) : ℚ) ≤ ((roundHalfEven (x / (2 : ℚ) ^ q) : Int) : ℚ) := by
    exact_mod_cast le_roundHalfEven n _ h1
  unfold roundTo
  exact mul_le_mul_of_nonneg_right h2 hp.le

/-- A multiple of `2 ^ q` above `x` is at least the rounding of `x` to such multiples. -/
theorem roundTo_le (q n : Int) (x : ℚ) (h : x ≤ (n : ℚ) * (2 : ℚ) ^ q) :
    roundTo q x ≤ (n : ℚ) * (2 : ℚ) ^ q := by
  have hp := two_zpow_pos q
  have h1 : x / (2 : ℚ) ^ q ≤ (n : ℚ) := (div_le_iff₀ hp).mpr h
  have h2 : ((roundHalfEven (x / (2 : ℚ) ^ q) : Int) : ℚ) ≤ ((n : Int) : ℚ) := by
    exact_mod_cast roundHalfEven_le n _ h1
  unfold roundTo
  exact mul_le_mul_of_nonneg_right h2 hp.le

/-- Rounding to multiples of `2 ^ q` fixes the multiples of `2 ^ q`. -/
theorem roundTo_multiple (q n : Int) : roundTo q ((n : ℚ) * (2 : ℚ) ^ q) = (n : ℚ) * (2 : ℚ) ^ q :=
  le_antisymm (roundTo_le q n _ le_rfl) (le_roundTo q n _ le_rfl)

/-- A multiple of `2 ^ e` is a multiple of every smaller power of two. -/
theorem multiple_coarsen (m e q : Int) (h : q ≤ e) :
    ∃ n : Int, (m : ℚ) * (2 : ℚ) ^ e = (n : ℚ) * (2 : ℚ) ^ q := by
  refine ⟨m * 2 ^ (e - q).toNat, ?_⟩
  have he : e = ((e - q).toNat : Int) + q := by omega
  push_cast
  rw [mul_assoc, ← zpow_natCast, ← zpow_add₀ (by norm_num)]
  rw [← he]

/-- The binade of a nonzero rational. -/
theorem log_spec (x : ℚ) (hx : x ≠ 0) :
    (2 : ℚ) ^ Int.log 2 |x| ≤ |x| ∧ |x| < (2 : ℚ) ^ (Int.log 2 |x| + 1) := by
  have h1 := Int.zpow_log_le_self (b := 2) (r := |x|) (by norm_num) (abs_pos.mpr hx)
  have h2 := Int.lt_zpow_succ_log_self (b := 2) (by norm_num) |x|
  exact ⟨by simpa using h1, by simpa using h2⟩

/-- The binade is determined by the two powers of two around the magnitude. -/
theorem log_unique (x : ℚ) (k : Int) (h1 : (2 : ℚ) ^ k ≤ |x|) (h2 : |x| < (2 : ℚ) ^ (k + 1)) :
    Int.log 2 |x| = k := by
  have hx : 0 < |x| := lt_of_lt_of_le (two_zpow_pos k) h1
  have a1 : k ≤ Int.log 2 |x| :=
    (Int.zpow_le_iff_le_log (b := 2) (by norm_num) hx).mp (by simpa using h1)
  have a2 : Int.log 2 |x| < k + 1 :=
    (Int.lt_zpow_iff_log_lt (b := 2) (by norm_num) hx).mp (by simpa using h2)
  omega

theorem roundTo_zero (q : Int) : roundTo q 0 = 0 := by
  have h := roundTo_multiple q 0
  simpa using h

theorem qmin_le_quantum (f : Fmt) (x : ℚ) : f.qmin ≤ f.quantum x := le_max_right _ _

theorem log_le_quantum (f : Fmt) (x : ℚ) : Int.log 2 |x| - f.prec + 1 ≤ f.quantum x :=
  le_max_left _ _

theorem quantum_cases (f : Fmt) (x : ℚ) :
    f.quantum x = f.qmin ∨ (f.qmin < f.quantum x ∧ f.quantum x = Int.log 2 |x| - f.prec + 1) := by
  unfold Fmt.quantum
  rcases le_total (Int.log 2 |x| - f.prec + 1) f.qmin with h | h
  · left; exact max_eq_right h
  · rcases eq_or_lt_of_le h with h1 | h1
    · left; rw [max_eq_left h]; exact h1.symm
    · right; rw [max_eq_left h]; exact ⟨h1, rfl⟩

/-- The magnitude of a value with significand `m` and last place `e`. -/
theorem abs_significand_lt (f : Fmt) (m e : Int) (hm : |m| < (2 : Int) ^ f.prec) :
    |(m : ℚ) * (2 : ℚ) ^ e| < (2 : ℚ) ^ ((f.prec : Int) + e) := by
  have hp := two_zpow_pos e
  have h1 : ((|m| : Int) : ℚ) < (((2 : Int) ^ f.prec : Int) : ℚ) := by exact_mod_cast hm
  have h2 : |(m : ℚ)| < (2 : ℚ) ^ (f.prec : Int) := by
    rw [zpow_natCast]
    simpa using h1
  rw [abs_mul, abs_of_pos hp, zpow_add₀ (by norm_num)]
  exact mul_lt_mul_of_pos_right h2 hp

/-- The greatest finite value, as a value of the format. -/
theorem holds_maxFinite (f : Fmt) (hq : f.qmin ≤ f.qmax) : f.holds f.maxFinite := by
  refine ⟨2 ^ f.prec - 1, f.qmax, ?_, hq, le_rfl, ?_⟩
  · have h : (0 : Int) < 2 ^ f.prec := by positivity
    rw [abs_of_nonneg (by omega)]
    omega
  · unfold Fmt.maxFinite
    push_cast
    ring

/-- No finite value exceeds the greatest finite value in magnitude. -/
theorem holds_abs_le (f : Fmt) (y : ℚ) (hy : f.holds y) : |y| ≤ f.maxFinite := by
  obtain ⟨m, e, hm, _, he2, rfl⟩ := hy
  have hp := two_zpow_pos e
  have h1 : |m| ≤ (2 : Int) ^ f.prec - 1 := by omega
  have h2 : ((|m| : Int) : ℚ) ≤ (((2 : Int) ^ f.prec - 1 : Int) : ℚ) := by exact_mod_cast h1
  have h3 : |(m : ℚ)| ≤ (2 : ℚ) ^ f.prec - 1 := by simpa using h2
  have h4 : (0 : ℚ) ≤ |(m : ℚ)| := abs_nonneg _
  rw [abs_mul, abs_of_pos hp]
  unfold Fmt.maxFinite
  exact mul_le_mul h3 (two_zpow_le he2) hp.le (by linarith)

/-- The negation of a finite value is a finite value. -/
theorem holds_neg (f : Fmt) (y : ℚ) (hy : f.holds y) : f.holds (-y) := by
  obtain ⟨m, e, hm, he1, he2, rfl⟩ := hy
  exact ⟨-m, e, by rwa [abs_neg], he1, he2, by push_cast; ring⟩

/-- Zero is a finite value. -/
theorem holds_zero (f : Fmt) (hq : f.qmin ≤ f.qmax) : f.holds 0 :=
  ⟨0, f.qmin, by simp, le_rfl, hq, by simp⟩

/-- A finite value below `x` is at most `x` rounded at its own last place. -/
theorem le_roundTo_quantum (f : Fmt) (hp : 1 ≤ f.prec) (y x : ℚ) (hy : f.holds y)
    (h : y ≤ x) : y ≤ roundTo (f.quantum x) x := by
  obtain ⟨m, e, hm, he1, he2, rfl⟩ := hy
  by_cases hq : f.quantum x ≤ e
  · obtain ⟨n, hn⟩ := multiple_coarsen m e _ hq
    rw [hn] at h ⊢
    exact le_roundTo _ n x h
  · push_neg at hq
    rcases quantum_cases f x with h0 | ⟨_, h1⟩
    · have := qmin_le_quantum f x; omega
    · by_cases hx0 : x = 0
      · subst hx0; rw [roundTo_zero]; exact h
      · obtain ⟨hk, _⟩ := log_spec x hx0
        generalize Int.log 2 |x| = k at hk h1
        have hlt := abs_significand_lt f m e hm
        have hle : (2 : ℚ) ^ ((f.prec : Int) + e) ≤ (2 : ℚ) ^ k := two_zpow_le (by omega)
        rcases lt_or_gt_of_ne hx0 with hneg | hpos
        · rw [abs_of_neg hneg] at hk
          have := neg_abs_le ((m : ℚ) * (2 : ℚ) ^ e)
          linarith
        · rw [abs_of_pos hpos] at hk
          obtain ⟨n, hn⟩ := multiple_coarsen 1 k (f.quantum x) (by omega)
          have hn2 : (2 : ℚ) ^ k = (n : ℚ) * (2 : ℚ) ^ f.quantum x := by
            rw [← hn]; simp
          have h3 := le_roundTo (f.quantum x) n x (by rw [← hn2]; exact hk)
          have := le_abs_self ((m : ℚ) * (2 : ℚ) ^ e)
          linarith

/-- A finite value above `x` is at least `x` rounded at its own last place. -/
theorem roundTo_quantum_le (f : Fmt) (hp : 1 ≤ f.prec) (y x : ℚ) (hy : f.holds y)
    (h : x ≤ y) : roundTo (f.quantum x) x ≤ y := by
  obtain ⟨m, e, hm, he1, he2, rfl⟩ := hy
  by_cases hq : f.quantum x ≤ e
  · obtain ⟨n, hn⟩ := multiple_coarsen m e _ hq
    rw [hn] at h ⊢
    exact roundTo_le _ n x h
  · push_neg at hq
    rcases quantum_cases f x with h0 | ⟨_, h1⟩
    · have := qmin_le_quantum f x; omega
    · by_cases hx0 : x = 0
      · subst hx0; rw [roundTo_zero]; exact h
      · obtain ⟨hk, _⟩ := log_spec x hx0
        generalize Int.log 2 |x| = k at hk h1
        have hlt := abs_significand_lt f m e hm
        have hle : (2 : ℚ) ^ ((f.prec : Int) + e) ≤ (2 : ℚ) ^ k := two_zpow_le (by omega)
        rcases lt_or_gt_of_ne hx0 with hneg | hpos
        · rw [abs_of_neg hneg] at hk
          obtain ⟨n, hn⟩ := multiple_coarsen (-1) k (f.quantum x) (by omega)
          have hn2 : -(2 : ℚ) ^ k = (n : ℚ) * (2 : ℚ) ^ f.quantum x := by
            rw [← hn]; simp
          have h3 := roundTo_le (f.quantum x) n x (by rw [← hn2]; linarith)
          have := neg_abs_le ((m : ℚ) * (2 : ℚ) ^ e)
          linarith
        · rw [abs_of_pos hpos] at hk
          have := le_abs_self ((m : ℚ) * (2 : ℚ) ^ e)
          linarith

/-- Rounding a rational that lies between two finite values gives a finite result
between them. -/
theorem rne_between (f : Fmt) (hp : 1 ≤ f.prec) (lo hi x : ℚ) (hlo : f.holds lo)
    (hhi : f.holds hi) (h1 : lo ≤ x) (h2 : x ≤ hi) :
    f.rne x = .fin (roundTo (f.quantum x) x) ∧ lo ≤ roundTo (f.quantum x) x ∧
      roundTo (f.quantum x) x ≤ hi := by
  have a1 := le_roundTo_quantum f hp lo x hlo h1
  have a2 := roundTo_quantum_le f hp hi x hhi h2
  have b1 := holds_abs_le f lo hlo
  have b2 := holds_abs_le f hi hhi
  have c1 := neg_abs_le lo
  have c2 := le_abs_self hi
  refine ⟨?_, a1, a2⟩
  unfold Fmt.rne
  rw [if_neg]
  rw [not_lt, abs_le]
  constructor <;> linarith

/-- Rounding fixes the finite values of the format. -/
theorem rne_of_holds (f : Fmt) (hp : 1 ≤ f.prec) (y : ℚ) (hy : f.holds y) :
    f.rne y = .fin y := by
  obtain ⟨h, h1, h2⟩ := rne_between f hp y y y hy hy le_rfl le_rfl
  rw [h, le_antisymm h2 h1]

theorem qmin_le_qmax (f : Fmt) (hv : f.valid) : f.qmin ≤ f.qmax := by
  unfold Fmt.qmin Fmt.qmax Fmt.emin
  have := hv.2
  omega

/-- The greatest finite value is `2 ^ (emax + 1)` less one unit in the last place. -/
theorem maxFinite_eq (f : Fmt) : f.maxFinite = (2 : ℚ) ^ (f.emax + 1) - (2 : ℚ) ^ f.qmax := by
  have h : f.emax + 1 = (f.prec : Int) + f.qmax := by unfold Fmt.qmax; omega
  unfold Fmt.maxFinite
  rw [h, zpow_add₀ (by norm_num), zpow_natCast]
  ring

theorem maxFinite_lt (f : Fmt) : f.maxFinite < (2 : ℚ) ^ (f.emax + 1) := by
  rw [maxFinite_eq]
  linarith [two_zpow_pos f.qmax]

/-- In a binade where the last place is `prec - 1` places below the leading one, the
rounding stays on the same side of the leading power of two. -/
theorem roundTo_binade (f : Fmt) (hp : 1 ≤ f.prec) (x : ℚ) (hx0 : x ≠ 0)
    (hq : f.quantum x = Int.log 2 |x| - f.prec + 1) :
    (0 < x → (2 : ℚ) ^ Int.log 2 |x| ≤ roundTo (f.quantum x) x) ∧
    (x < 0 → roundTo (f.quantum x) x ≤ -(2 : ℚ) ^ Int.log 2 |x|) := by
  obtain ⟨hk, _⟩ := log_spec x hx0
  generalize Int.log 2 |x| = k at hk hq
  constructor
  · intro hpos
    rw [abs_of_pos hpos] at hk
    obtain ⟨n, hn⟩ := multiple_coarsen 1 k (f.quantum x) (by omega)
    have hn2 : (2 : ℚ) ^ k = (n : ℚ) * (2 : ℚ) ^ f.quantum x := by rw [← hn]; simp
    rw [hn2] at hk ⊢
    exact le_roundTo _ n x hk
  · intro hneg
    rw [abs_of_neg hneg] at hk
    obtain ⟨n, hn⟩ := multiple_coarsen (-1) k (f.quantum x) (by omega)
    have hn2 : -(2 : ℚ) ^ k = (n : ℚ) * (2 : ℚ) ^ f.quantum x := by rw [← hn]; simp
    rw [hn2]
    exact roundTo_le _ n x (by rw [← hn2]; linarith)

/-- From `2 ^ (emax + 1)` on, the binade lies above the format. -/
theorem binade_of_large (f : Fmt) (hv : f.valid) (x : ℚ)
    (h : (2 : ℚ) ^ (f.emax + 1) ≤ |x|) :
    x ≠ 0 ∧ f.emax + 1 ≤ Int.log 2 |x| ∧ f.quantum x = Int.log 2 |x| - f.prec + 1 := by
  have hx0 : x ≠ 0 := by
    intro h0
    rw [h0, abs_zero] at h
    linarith [two_zpow_pos (f.emax + 1)]
  obtain ⟨_, hk2⟩ := log_spec x hx0
  have hlq := log_le_quantum f x
  have hcases := quantum_cases f x
  generalize Int.log 2 |x| = k at hk2 hlq hcases ⊢
  have hlt : (2 : ℚ) ^ (f.emax + 1) < (2 : ℚ) ^ (k + 1) := lt_of_le_of_lt h hk2
  have hk : f.emax + 1 < k + 1 := (zpow_lt_zpow_iff_right₀ (by norm_num)).mp hlt
  have he := hv.2
  refine ⟨hx0, by omega, ?_⟩
  rcases hcases with h0 | ⟨_, h1⟩
  · rw [h0] at hlq
    unfold Fmt.qmin Fmt.emin at hlq
    omega
  · exact h1

/-- A rational at or above `2 ^ (emax + 1)` rounds to plus infinity. -/
theorem rne_overflow_pos (f : Fmt) (hv : f.valid) (x : ℚ) (h : (2 : ℚ) ^ (f.emax + 1) ≤ x) :
    f.rne x = .inf false := by
  have hpos : 0 < x := lt_of_lt_of_le (two_zpow_pos _) h
  obtain ⟨hx0, hk, hq⟩ := binade_of_large f hv x (by rwa [abs_of_pos hpos])
  have hb := (roundTo_binade f (by have := hv.1; omega) x hx0 hq).1 hpos
  have hm := maxFinite_lt f
  have hle : (2 : ℚ) ^ (f.emax + 1) ≤ (2 : ℚ) ^ Int.log 2 |x| := two_zpow_le hk
  have hr : f.maxFinite < |roundTo (f.quantum x) x| :=
    lt_of_lt_of_le (by linarith) (le_abs_self _)
  unfold Fmt.rne
  rw [if_pos hr]
  simp [not_lt.mpr hpos.le]

/-- A rational at or below `-2 ^ (emax + 1)` rounds to minus infinity. -/
theorem rne_overflow_neg (f : Fmt) (hv : f.valid) (x : ℚ) (h : x ≤ -(2 : ℚ) ^ (f.emax + 1)) :
    f.rne x = .inf true := by
  have hneg : x < 0 := by linarith [two_zpow_pos (f.emax + 1)]
  obtain ⟨hx0, hk, hq⟩ := binade_of_large f hv x (by rw [abs_of_neg hneg]; linarith)
  have hb := (roundTo_binade f (by have := hv.1; omega) x hx0 hq).2 hneg
  have hm := maxFinite_lt f
  have hle : (2 : ℚ) ^ (f.emax + 1) ≤ (2 : ℚ) ^ Int.log 2 |x| := two_zpow_le hk
  have hr : f.maxFinite < |roundTo (f.quantum x) x| :=
    lt_of_lt_of_le (by linarith) (neg_le_abs _)
  unfold Fmt.rne
  rw [if_pos hr]
  simp [hneg]

/-- Half of a finite value is a finite value unless the value is below the second
binade of the format. -/
theorem holds_half (f : Fmt) (y : ℚ) (hy : f.holds y) :
    f.holds (y / 2) ∨ |y| < (2 : ℚ) ^ (f.emin + 1) := by
  obtain ⟨m, e, hm, he1, he2, rfl⟩ := hy
  rcases eq_or_lt_of_le he1 with h | h
  · right
    have hlt := abs_significand_lt f m e hm
    have : (f.prec : Int) + e = f.emin + 1 := by rw [← h]; unfold Fmt.qmin; omega
    rwa [this] at hlt
  · left
    exact ⟨m, e - 1, hm, by omega, by omega, by rw [two_zpow_pred]; ring⟩

/-- Twice a finite value is a finite value unless it reaches `2 ^ (emax + 1)`. -/
theorem holds_double (f : Fmt) (y : ℚ) (hy : f.holds y) :
    f.holds (2 * y) ∨ (2 : ℚ) ^ (f.emax + 1) ≤ |2 * y| := by
  obtain ⟨m, e, hm, he1, he2, rfl⟩ := hy
  rcases eq_or_lt_of_le he2 with h | h
  · by_cases h2 : |2 * m| < (2 : Int) ^ f.prec
    · left
      exact ⟨2 * m, e, h2, he1, he2, by push_cast; ring⟩
    · right
      push_neg at h2
      have hp := two_zpow_pos e
      have h3 : (((2 : Int) ^ f.prec : Int) : ℚ) ≤ ((|2 * m| : Int) : ℚ) := by exact_mod_cast h2
      have h4 : (2 : ℚ) ^ (f.prec : Int) ≤ |2 * (m : ℚ)| := by
        rw [zpow_natCast]
        simpa using h3
      have h5 : f.emax + 1 = (f.prec : Int) + e := by rw [h]; unfold Fmt.qmax; omega
      rw [h5, zpow_add₀ (by norm_num), ← mul_assoc, abs_mul, abs_of_pos hp]
      exact mul_le_mul_of_nonneg_right h4 hp.le
  · left
    exact ⟨m, e + 1, hm, by omega, by omega, by rw [two_zpow_succ]; ring⟩

/-- A nonzero rational with a finite rounding is rounded at a last place of the
format. -/
theorem quantum_le_of_finite (f : Fmt) (hv : f.valid) (x t : ℚ) (h : f.rne x = .fin t) :
    f.quantum x ≤ f.qmax ∨ x = 0 := by
  by_cases hx0 : x = 0
  · right; exact hx0
  left
  by_contra hcon
  push_neg at hcon
  have hqq := qmin_le_qmax f hv
  obtain ⟨hk1, _⟩ := log_spec x hx0
  rcases quantum_cases f x with h0 | ⟨_, h1⟩
  · omega
  · generalize Int.log 2 |x| = k at hk1 h1
    have hle : (2 : ℚ) ^ (f.emax + 1) ≤ (2 : ℚ) ^ k :=
      two_zpow_le (by unfold Fmt.qmax at hcon; omega)
    rcases lt_or_gt_of_ne hx0 with hneg | hpos
    · rw [rne_overflow_neg f hv x (by rw [abs_of_neg hneg] at hk1; linarith)] at h
      cases h
    · rw [rne_overflow_pos f hv x (by rw [abs_of_pos hpos] at hk1; linarith)] at h
      cases h

/-- The significand of a rounding has at most `prec + 1` bits. -/
theorem abs_significand_le (f : Fmt) (x : ℚ) :
    |roundHalfEven (x / (2 : ℚ) ^ f.quantum x)| ≤ (2 : Int) ^ f.prec := by
  by_cases hx0 : x = 0
  · subst hx0
    have h1 := roundHalfEven_le 0 (0 / (2 : ℚ) ^ f.quantum 0) (by simp)
    have h2 := le_roundHalfEven 0 (0 / (2 : ℚ) ^ f.quantum 0) (by simp)
    have h3 : roundHalfEven (0 / (2 : ℚ) ^ f.quantum 0) = 0 := le_antisymm h1 h2
    rw [h3]
    simp
  · obtain ⟨_, hk2⟩ := log_spec x hx0
    have hlq := log_le_quantum f x
    have hp := two_zpow_pos (f.quantum x)
    have hle : (2 : ℚ) ^ (Int.log 2 |x| + 1) ≤ (2 : ℚ) ^ ((f.prec : Int) + f.quantum x) :=
      two_zpow_le (by omega)
    have hpow : (2 : ℚ) ^ ((f.prec : Int) + f.quantum x)
        = (2 : ℚ) ^ f.prec * (2 : ℚ) ^ f.quantum x := by
      rw [zpow_add₀ (by norm_num), zpow_natCast]
    rw [hpow] at hle
    have hcast : (((2 : Int) ^ f.prec : Int) : ℚ) = (2 : ℚ) ^ f.prec := by push_cast; rfl
    have hup : x / (2 : ℚ) ^ f.quantum x ≤ (((2 : Int) ^ f.prec : Int) : ℚ) := by
      rw [hcast, div_le_iff₀ hp]
      linarith [le_abs_self x]
    have hdn : ((-(2 : Int) ^ f.prec : Int) : ℚ) ≤ x / (2 : ℚ) ^ f.quantum x := by
      rw [Int.cast_neg, hcast, le_div_iff₀ hp]
      linarith [neg_abs_le x]
    have h1 := roundHalfEven_le _ _ hup
    have h2 := le_roundHalfEven _ _ hdn
    rw [abs_le]
    exact ⟨h2, h1⟩

/-- A finite result of rounding is a finite value of the format. -/
theorem holds_of_rne (f : Fmt) (hv : f.valid) (x t : ℚ) (h : f.rne x = .fin t) :
    f.holds t := by
  have hqq := qmin_le_qmax f hv
  have hquant := quantum_le_of_finite f hv x t h
  have hM := abs_significand_le f x
  have hp1 : 1 ≤ f.prec := by have := hv.1; omega
  unfold Fmt.rne at h
  split_ifs at h with hov
  injection h with ht
  subst ht
  rcases hquant with hq | hx0
  · have hr : roundTo (f.quantum x) x
        = ((roundHalfEven (x / (2 : ℚ) ^ f.quantum x) : Int) : ℚ) * (2 : ℚ) ^ f.quantum x := rfl
    rw [hr] at hov ⊢
    have hqm := qmin_le_quantum f x
    generalize roundHalfEven (x / (2 : ℚ) ^ f.quantum x) = M at hM hov
    generalize f.quantum x = q at hq hov hqm
    rcases eq_or_lt_of_le hM with heq | hlt
    · -- the significand carried into the next binade
      have hval : |(M : ℚ) * (2 : ℚ) ^ q| = (2 : ℚ) ^ ((f.prec : Int) + q) := by
        rw [abs_mul, abs_of_pos (two_zpow_pos _), zpow_add₀ (by norm_num), zpow_natCast]
        congr 1
        have : ((|M| : Int) : ℚ) = (((2 : Int) ^ f.prec : Int) : ℚ) := by rw [heq]
        simpa using this
      have hlt2 : (2 : ℚ) ^ ((f.prec : Int) + q) < (2 : ℚ) ^ (f.emax + 1) := by
        rw [← hval]
        exact lt_of_le_of_lt (not_lt.mp hov) (maxFinite_lt f)
      have hq2 : (f.prec : Int) + q < f.emax + 1 :=
        (zpow_lt_zpow_iff_right₀ (by norm_num)).mp hlt2
      have hpp := two_pow_pred f.prec hp1
      have hpos := two_pow_pos (f.prec - 1)
      rw [abs_eq (two_pow_pos f.prec).le] at heq
      have hdiv : M = 2 * (M / 2) := by
        rcases heq with h1 | h1 <;> rw [h1] <;> omega
      have hdivq : (M : ℚ) = 2 * ((M / 2 : Int) : ℚ) := by exact_mod_cast hdiv
      refine ⟨M / 2, q + 1, ?_, by omega, by unfold Fmt.qmax; omega, ?_⟩
      · rw [abs_lt]
        rcases heq with h1 | h1 <;> rw [h1] <;> constructor <;> omega
      · rw [two_zpow_succ]
        linear_combination ((2 : ℚ) ^ q) * hdivq
    · exact ⟨M, q, hlt, hqm, hq, rfl⟩
  · subst hx0
    rw [roundTo_zero]
    exact holds_zero f hqq

/-- A finite rounding is the rounding at the last place, within the finite range. -/
theorem rne_fin_eq (f : Fmt) (x t : ℚ) (h : f.rne x = .fin t) :
    t = roundTo (f.quantum x) x ∧ |t| ≤ f.maxFinite := by
  unfold Fmt.rne at h
  split_ifs at h with hov
  injection h with ht
  subst ht
  exact ⟨rfl, not_lt.mp hov⟩

/-- Twice a finite value below `x` is at most the finite rounding of `x`. -/
theorem double_le_rne (f : Fmt) (hv : f.valid) (y x t : ℚ) (hy : f.holds y)
    (h : 2 * y ≤ x) (ht : f.rne x = .fin t) : 2 * y ≤ t := by
  obtain ⟨hteq, htabs⟩ := rne_fin_eq f x t ht
  rcases holds_double f y hy with hd | hbig
  · rw [hteq]
    exact le_roundTo_quantum f (by have := hv.1; omega) (2 * y) x hd h
  · rcases le_or_lt 0 y with h0 | h0
    · rw [abs_of_nonneg (by linarith)] at hbig
      rw [rne_overflow_pos f hv x (le_trans hbig h)] at ht
      cases ht
    · rw [abs_of_neg (by linarith)] at hbig
      have := maxFinite_lt f
      have := neg_abs_le t
      linarith

/-- Twice a finite value above `x` is at least the finite rounding of `x`. -/
theorem rne_le_double (f : Fmt) (hv : f.valid) (y x t : ℚ) (hy : f.holds y)
    (h : x ≤ 2 * y) (ht : f.rne x = .fin t) : t ≤ 2 * y := by
  obtain ⟨hteq, htabs⟩ := rne_fin_eq f x t ht
  rcases holds_double f y hy with hd | hbig
  · rw [hteq]
    exact roundTo_quantum_le f (by have := hv.1; omega) (2 * y) x hd h
  · rcases le_or_lt y 0 with h0 | h0
    · rw [abs_of_nonpos (by linarith)] at hbig
      rw [rne_overflow_neg f hv x (by linarith)] at ht
      cases ht
    · rw [abs_of_pos (by linarith)] at hbig
      have := maxFinite_lt f
      have := le_abs_self t
      linarith

/-- The greatest finite value is at least `2 ^ emax`. -/
theorem maxFinite_ge (f : Fmt) (hv : f.valid) : (2 : ℚ) ^ f.emax ≤ f.maxFinite := by
  have h1 : (2 : ℚ) ^ f.qmax ≤ (2 : ℚ) ^ f.emax :=
    two_zpow_le (by unfold Fmt.qmax; have := hv.1; omega)
  rw [maxFinite_eq, two_zpow_succ]
  linarith

/-- With at least two significand bits the greatest finite value is at least
`3 * 2 ^ (emax - 1)`. -/
theorem maxFinite_ge_three_halves (f : Fmt) (hv : f.valid) :
    3 * (2 : ℚ) ^ (f.emax - 1) ≤ f.maxFinite := by
  have h1 : (2 : ℚ) ^ f.qmax ≤ (2 : ℚ) ^ (f.emax - 1) :=
    two_zpow_le (by unfold Fmt.qmax; have := hv.1; omega)
  have h2 := two_zpow_succ (f.emax - 1)
  have h3 := two_zpow_succ f.emax
  rw [sub_add_cancel] at h2
  rw [maxFinite_eq, h3, h2]
  linarith

/-- The least binades lie well below the greatest one. -/
theorem small_binade_le (f : Fmt) (hv : f.valid) :
    4 * (2 : ℚ) ^ (f.emin + 1) ≤ (2 : ℚ) ^ f.emax := by
  have h1 : (2 : ℚ) ^ (f.emin + 1 + 1 + 1) ≤ (2 : ℚ) ^ f.emax :=
    two_zpow_le (by unfold Fmt.emin; have := hv.2; omega)
  rw [two_zpow_succ, two_zpow_succ] at h1
  linarith

/-- The rounding of half of a finite value lies between zero and a finite value
beyond that half. -/
theorem rne_half_between (f : Fmt) (hv : f.valid) (y lo hi : ℚ) (hlo : f.holds lo)
    (hhi : f.holds hi) (h1 : lo ≤ y * (1 / 2)) (h2 : y * (1 / 2) ≤ hi) :
    ∃ h : ℚ, f.rne (y * (1 / 2)) = .fin h ∧ lo ≤ h ∧ h ≤ hi :=
  ⟨_, rne_between f (by have := hv.1; omega) lo hi _ hlo hhi h1 h2⟩

/-- Half of a finite value rounds to itself when it is a finite value. -/
theorem rne_half_exact (f : Fmt) (hv : f.valid) (y : ℚ) (hy : f.holds (y / 2)) :
    f.rne (y * (1 / 2)) = .fin (y / 2) := by
  have h : y * (1 / 2) = y / 2 := by ring
  rw [h]
  exact rne_of_holds f (by have := hv.1; omega) _ hy

/-- The fallback sum of the halves, `a ≤ b`, when the exact sum is beyond the finite
range: both halves round to finite values whose sum lies between `a` and `b`. -/
theorem fallback_halves (f : Fmt) (hv : f.valid) (a b : ℚ) (ha : f.holds a) (hb : f.holds b)
    (hab : a ≤ b) (hbig : f.maxFinite < |a + b|) :
    ∃ a2 b2 : ℚ, f.rne (a * (1 / 2)) = .fin a2 ∧ f.rne (b * (1 / 2)) = .fin b2 ∧
      a ≤ a2 + b2 ∧ a2 + b2 ≤ b := by
  have hqq := qmin_le_qmax f hv
  have h0 := holds_zero f hqq
  have hA := holds_abs_le f a ha
  have hB := holds_abs_le f b hb
  have hM := maxFinite_ge f hv
  have hS := small_binade_le f hv
  have hPe := two_zpow_pos (f.emin + 1)
  rcases lt_or_le (a + b) 0 with hneg | hpos
  · -- both operands are negative and `a` is large
    rw [abs_of_neg hneg] at hbig
    have hb0 : b < 0 := by linarith [neg_abs_le a]
    have ha2 : f.holds (a / 2) := by
      rcases holds_half f a ha with h | h
      · exact h
      · have := neg_abs_le a
        linarith
    have hae := rne_half_exact f hv a ha2
    obtain ⟨b2, hbe, hb1, hb2⟩ :=
      rne_half_between f hv b (a / 2) 0 ha2 h0 (by linarith) (by linarith)
    refine ⟨a / 2, b2, hae, hbe, by linarith, ?_⟩
    rcases holds_half f b hb with h | h
    · rw [rne_half_exact f hv b h] at hbe
      injection hbe with hbe
      rw [← hbe]
      linarith
    · have := neg_abs_le b
      linarith
  · -- both operands are positive and `b` is large
    rw [abs_of_nonneg hpos] at hbig
    have ha0 : 0 < a := by linarith [le_abs_self b]
    have hb2 : f.holds (b / 2) := by
      rcases holds_half f b hb with h | h
      · exact h
      · have := le_abs_self b
        linarith
    have hbe := rne_half_exact f hv b hb2
    obtain ⟨a2, hae, ha1, ha2⟩ :=
      rne_half_between f hv a 0 (b / 2) h0 hb2 (by linarith) (by linarith)
    refine ⟨a2, b / 2, hae, hbe, ?_, by linarith⟩
    rcases holds_half f a ha with h | h
    · rw [rne_half_exact f hv a h] at hae
      injection hae with hae
      rw [← hae]
      linarith
    · have := le_abs_self a
      linarith

/-- A sum within the finite range in magnitude rounds to a finite value. -/
theorem rne_finite_of_abs_le (f : Fmt) (hv : f.valid) (x : ℚ) (h : |x| ≤ f.maxFinite) :
    ∃ t : ℚ, f.rne x = .fin t := by
  have hm := holds_maxFinite f (qmin_le_qmax f hv)
  have h1 := neg_abs_le x
  have h2 := le_abs_self x
  exact ⟨_, (rne_between f (by have := hv.1; omega) (-f.maxFinite) f.maxFinite x
    (holds_neg f _ hm) hm (by linarith) (by linarith)).1⟩

/-- The floating-point overload at two finite values, `a ≤ b`: the result is a finite
value of the format between `a` and `b`. -/
theorem midpoint_between_of_le (f : Fmt) (hv : f.valid) (a b : ℚ) (ha : f.holds a)
    (hb : f.holds b) (hab : a ≤ b) :
    (∃ r : ℚ, Floating.midpoint f.rne (.fin a) (.fin b) = .fin r ∧ a ≤ r ∧ r ≤ b) ∧
    (∃ r : ℚ, Floating.midpoint f.rne (.fin b) (.fin a) = .fin r ∧ a ≤ r ∧ r ≤ b) := by
  have hp1 : 1 ≤ f.prec := by have := hv.1; omega
  have key : ∀ x y : ℚ, x + y = a + b → (x = a ∧ y = b ∨ x = b ∧ y = a) →
      ∃ r : ℚ, Floating.midpoint f.rne (.fin x) (.fin y) = .fin r ∧ a ≤ r ∧ r ≤ b := by
    intro x y hxy hcase
    cases hsum : f.rne (a + b) with
    | fin t =>
      have h1 := double_le_rne f hv a (a + b) t ha (by linarith) hsum
      have h2 := rne_le_double f hv b (a + b) t hb (by linarith) hsum
      obtain ⟨hr, hr1, hr2⟩ := rne_between f hp1 a b (t * (1 / 2)) ha hb (by linarith)
        (by linarith)
      refine ⟨_, ?_, hr1, hr2⟩
      simp only [Floating.midpoint, Floating.add, Floating.mul, Floating.half, hxy, hsum,
        Floating.isfinite, if_true]
      exact hr
    | inf s =>
      have hbig : f.maxFinite < |a + b| := by
        by_contra hcon
        obtain ⟨t, ht⟩ := rne_finite_of_abs_le f hv (a + b) (not_lt.mp hcon)
        rw [ht] at hsum
        cases hsum
      obtain ⟨a2, b2, hae, hbe, hs1, hs2⟩ := fallback_halves f hv a b ha hb hab hbig
      rcases hcase with ⟨rfl, rfl⟩ | ⟨rfl, rfl⟩
      · obtain ⟨hr, hr1, hr2⟩ := rne_between f hp1 x y (a2 + b2) ha hb hs1 hs2
        refine ⟨_, ?_, hr1, hr2⟩
        simp only [Floating.midpoint, Floating.add, Floating.mul, Floating.half, hsum,
          Floating.isfinite, hae, hbe]
        exact hr
      · obtain ⟨hr, hr1, hr2⟩ := rne_between f hp1 y x (b2 + a2) ha hb (by linarith)
          (by linarith)
        refine ⟨_, ?_, hr1, hr2⟩
        have hsum2 : f.rne (x + y) = .inf s := by rw [hxy]; exact hsum
        simp only [Floating.midpoint, Floating.add, Floating.mul, Floating.half, hsum2,
          Floating.isfinite, hae, hbe]
        exact hr
    | nan =>
      exfalso
      unfold Fmt.rne at hsum
      split_ifs at hsum
  exact ⟨key a b rfl (Or.inl ⟨rfl, rfl⟩), key b a (add_comm b a) (Or.inr ⟨rfl, rfl⟩)⟩

/-- Every finite value is a multiple of the least last place. -/
theorem holds_multiple (f : Fmt) (y : ℚ) (hy : f.holds y) :
    ∃ n : Int, y = (n : ℚ) * (2 : ℚ) ^ f.qmin := by
  obtain ⟨m, e, _, he1, _, rfl⟩ := hy
  exact multiple_coarsen m e f.qmin he1

/-- Halving commutes with rounding: when `s` is a multiple of the least last place and
rounds to the finite value `t`, half of `t` rounds to what half of `s` rounds to. -/
theorem rne_half_of_rne (f : Fmt) (hv : f.valid) (s t : ℚ)
    (hs : ∃ n : Int, s = (n : ℚ) * (2 : ℚ) ^ f.qmin) (ht : f.rne s = .fin t) :
    f.rne (t * (1 / 2)) = f.rne (s / 2) := by
  have hp1 : 1 ≤ f.prec := by have := hv.1; omega
  obtain ⟨hteq, htabs⟩ := rne_fin_eq f s t ht
  have hmul : t * (1 / 2) = t / 2 := by ring
  rcases quantum_cases f s with h0 | ⟨hgt, hq⟩
  · -- the sum is exact
    obtain ⟨n, hn⟩ := hs
    rw [h0, hn, roundTo_multiple] at hteq
    rw [hmul, hteq, hn]
  · by_cases hs0 : s = 0
    · subst hs0
      rw [roundTo_zero] at hteq
      rw [hmul, hteq]
    · have hth := holds_of_rne f hv s t ht
      obtain ⟨hb1, hb2⟩ := roundTo_binade f hp1 s hs0 hq
      obtain ⟨hk1, hk2⟩ := log_spec s hs0
      rw [← hteq] at hb1 hb2
      have hqdef : f.qmin = f.emin - f.prec + 1 := rfl
      generalize Int.log 2 |s| = k at hq hb1 hb2 hk1 hk2
      have hkle : (2 : ℚ) ^ (f.emin + 1) ≤ (2 : ℚ) ^ k := two_zpow_le (by omega)
      have htk : (2 : ℚ) ^ k ≤ |t| := by
        rcases lt_or_gt_of_ne hs0 with hneg | hpos
        · exact le_trans (by linarith [hb2 hneg]) (neg_le_abs t)
        · exact le_trans (hb1 hpos) (le_abs_self t)
      -- half of `t` is a finite value
      have hhalf : f.holds (t / 2) := by
        rcases holds_half f t hth with h | h
        · exact h
        · linarith
      rw [hmul, rne_of_holds f hp1 _ hhalf]
      -- half of `s` is rounded one place lower
      have habs : |s / 2| = |s| / 2 := by rw [abs_div]; norm_num
      have hlog : Int.log 2 |s / 2| = k - 1 := by
        apply log_unique
        · rw [habs, two_zpow_pred]; linarith
        · rw [habs, sub_add_cancel]
          rw [two_zpow_succ] at hk2
          linarith
      have hquant : f.quantum (s / 2) = f.quantum s - 1 := by
        have h1 : f.quantum (s / 2) = max (Int.log 2 |s / 2| - f.prec + 1) f.qmin := rfl
        rw [h1, hlog, hq, max_eq_left (by omega)]
        omega
      have hround : roundTo (f.quantum (s / 2)) (s / 2) = t / 2 := by
        rw [hquant, hteq]
        unfold roundTo
        rw [two_zpow_pred]
        have hpos := two_zpow_pos (f.quantum s)
        have harg : s / 2 / ((2 : ℚ) ^ f.quantum s / 2) = s / (2 : ℚ) ^ f.quantum s := by
          field_simp
        rw [harg]
        ring
      unfold Fmt.rne
      rw [hround, if_neg]
      rw [not_lt, abs_div]
      have : |t| / |(2 : ℚ)| ≤ |t| := by
        rw [abs_of_pos (by norm_num : (0 : ℚ) < 2)]
        linarith [abs_nonneg t]
      linarith

/-- A floating-point sum is finite only when both operands are finite and the exact
sum rounds to a finite value. -/
theorem add_eq_fin (rnd : ℚ → FloatVal) (x y : FloatVal) (r : ℚ)
    (h : Floating.add rnd x y = .fin r) :
    ∃ p q : ℚ, x = .fin p ∧ y = .fin q ∧ rnd (p + q) = .fin r := by
  cases x with
  | nan => cases y <;> simp [Floating.add] at h
  | inf s =>
    cases y with
    | nan => simp [Floating.add] at h
    | inf s2 =>
      simp only [Floating.add] at h
      split_ifs at h
    | fin q => simp [Floating.add] at h
  | fin p =>
    cases y with
    | nan => simp [Floating.add] at h
    | inf s => simp [Floating.add] at h
    | fin q => exact ⟨p, q, rfl, rfl, h⟩

/-- When the sum rounds to an infinity the overload returns the fallback sum. -/
theorem midpoint_fallback (rnd : ℚ → FloatVal) (a b : FloatVal) (s : Bool)
    (h : Floating.add rnd a b = .inf s) :
    Floating.midpoint rnd a b =
      Floating.add rnd (Floating.mul rnd a Floating.half) (Floating.mul rnd b Floating.half) := by
  unfold Floating.midpoint
  simp only [h, Floating.isfinite]
  rfl

/-- A finite result of the floating-point overload at finite operands is a finite
value of the format. -/
theorem holds_of_midpoint (f : Fmt) (hv : f.valid) (a b r : ℚ)
    (h : Floating.midpoint f.rne (.fin a) (.fin b) = .fin r) : f.holds r := by
  cases hsum : f.rne (a + b) with
  | fin t =>
    have hm : Floating.midpoint f.rne (.fin a) (.fin b) = f.rne (t * (1 / 2)) := by
      unfold Floating.midpoint
      simp only [Floating.add, hsum, Floating.isfinite, if_true, Floating.mul, Floating.half]
    rw [hm] at h
    exact holds_of_rne f hv _ r h
  | inf s =>
    rw [midpoint_fallback f.rne (.fin a) (.fin b) s hsum] at h
    obtain ⟨p, q, _, _, hr⟩ := add_eq_fin f.rne _ _ r h
    exact holds_of_rne f hv _ r hr
  | nan =>
    exfalso
    unfold Fmt.rne at hsum
    split_ifs at hsum

/-- The sum of the greatest finite value and a finite value of at least half of it
rounds to plus infinity. -/
theorem add_maxFinite_overflows (f : Fmt) (hv : f.valid) (y : ℚ)
    (hy : f.maxFinite / 2 ≤ y) :
    Floating.add f.rne (.fin f.maxFinite) (.fin y) = .inf false := by
  have h1 := maxFinite_ge_three_halves f hv
  have h2 := two_zpow_succ (f.emax - 1)
  have h3 := two_zpow_succ f.emax
  have h4 := two_zpow_pos (f.emax - 1)
  rw [sub_add_cancel] at h2
  exact rne_overflow_pos f hv _ (by rw [h3, h2]; linarith)

/-! ## The floating-point overload -/

/-- C8: for every value `x` (finite, infinite or NaN) and every rounding of the type,
`midpoint(NaN, x)` and `midpoint(x, NaN)` are NaN: the sum `t` is NaN, NaN is not
finite, so the result is the fallback `a*.5 + b*.5`, which is NaN. -/
theorem midpoint_nan_propagates (rnd : ℚ → FloatVal) (x : FloatVal) :
    Floating.add rnd .nan x = .nan ∧
    Floating.add rnd x .nan = .nan ∧
    Floating.isfinite .nan = false ∧
    Floating.midpoint rnd .nan x =
      Floating.add rnd (Floating.mul rnd .nan Floating.half) (Floating.mul rnd x Floating.half) ∧
    Floating.midpoint rnd x .nan =
      Floating.add rnd (Floating.mul rnd x Floating.half) (Floating.mul rnd .nan Floating.half) ∧
    Floating.midpoint rnd .nan x = .nan ∧
    Floating.midpoint rnd x .nan = .nan := by
  have h1 : ∀ y, Floating.add rnd .nan y = .nan := fun y => by cases y <;> rfl
  have h2 : ∀ y, Floating.add rnd y .nan = .nan := fun y => by cases y <;> rfl
  have h3 : ∀ y, Floating.mul rnd .nan y = .nan := fun y => by cases y <;> rfl
  refine ⟨h1 x, h2 x, rfl, ?_, ?_, ?_, ?_⟩ <;>
    simp [Floating.midpoint, Floating.isfinite, h1, h2, h3]

/-- C6: for every pair of finite values `a`, `b` of a binary floating-point format
under round-to-nearest, `midpoint(a, b)` is a finite value with
`min(a, b) ≤ midpoint(a, b) ≤ max(a, b)`; with `MAX` the greatest finite value,
`midpoint(MAX, MAX) == MAX` and `midpoint(MAX, MAX/2)` is finite, both through the
fallback `a*.5 + b*.5` because the sum `a + b` is infinite. -/
theorem float_midpoint_finite_in_range (f : Fmt) (hv : f.valid) (a b : ℚ) (ha : f.holds a)
    (hb : f.holds b) :
    (∃ r : ℚ, Floating.midpoint f.rne (.fin a) (.fin b) = .fin r ∧ f.holds r ∧
      min a b ≤ r ∧ r ≤ max a b) ∧
    f.holds f.maxFinite ∧ f.holds (f.maxFinite / 2) ∧
    Floating.add f.rne (.fin f.maxFinite) (.fin f.maxFinite) = .inf false ∧
    Floating.midpoint f.rne (.fin f.maxFinite) (.fin f.maxFinite) =
      Floating.add f.rne (Floating.mul f.rne (.fin f.maxFinite) Floating.half)
        (Floating.mul f.rne (.fin f.maxFinite) Floating.half) ∧
    Floating.midpoint f.rne (.fin f.maxFinite) (.fin f.maxFinite) = .fin f.maxFinite ∧
    Floating.add f.rne (.fin f.maxFinite) (.fin (f.maxFinite / 2)) = .inf false ∧
    Floating.midpoint f.rne (.fin f.maxFinite) (.fin (f.maxFinite / 2)) =
      Floating.add f.rne (Floating.mul f.rne (.fin f.maxFinite) Floating.half)
        (Floating.mul f.rne (.fin (f.maxFinite / 2)) Floating.half) ∧
    Floating.isfinite (Floating.midpoint f.rne (.fin f.maxFinite) (.fin (f.maxFinite / 2)))
      = true := by
  have hqq := qmin_le_qmax f hv
  have hmax := holds_maxFinite f hqq
  have hge := maxFinite_ge f hv
  have hpos : 0 < f.maxFinite := lt_of_lt_of_le (two_zpow_pos _) hge
  have hhalf : f.holds (f.maxFinite / 2) := by
    rcases holds_half f _ hmax with h | h
    · exact h
    · have h1 := small_binade_le f hv
      have h2 := two_zpow_pos (f.emin + 1)
      rw [abs_of_pos hpos] at h
      linarith
  have gen : ∀ x y : ℚ, f.holds x → f.holds y →
      ∃ r : ℚ, Floating.midpoint f.rne (.fin x) (.fin y) = .fin r ∧ f.holds r ∧
        min x y ≤ r ∧ r ≤ max x y := by
    intro x y hx hy
    rcases le_total x y with h | h
    · obtain ⟨r, hr, h1, h2⟩ := (midpoint_between_of_le f hv x y hx hy h).1
      exact ⟨r, hr, holds_of_midpoint f hv x y r hr, by rwa [min_eq_left h],
        by rwa [max_eq_right h]⟩
    · obtain ⟨r, hr, h1, h2⟩ := (midpoint_between_of_le f hv y x hy hx h).2
      exact ⟨r, hr, holds_of_midpoint f hv x y r hr, by rwa [min_eq_right h],
        by rwa [max_eq_left h]⟩
  have hov1 := add_maxFinite_overflows f hv f.maxFinite (by linarith)
  have hov2 := add_maxFinite_overflows f hv (f.maxFinite / 2) le_rfl
  refine ⟨gen a b ha hb, hmax, hhalf, hov1, midpoint_fallback _ _ _ _ hov1, ?_, hov2,
    midpoint_fallback _ _ _ _ hov2, ?_⟩
  · obtain ⟨r, hr, _, h1, h2⟩ := gen f.maxFinite f.maxFinite hmax hmax
    rw [min_self] at h1
    rw [max_self] at h2
    rw [hr, le_antisymm h2 h1]
  · obtain ⟨r, hr, _⟩ := gen f.maxFinite (f.maxFinite / 2) hmax hhalf
    rw [hr]
    rfl

theorem float_midpoint_finite_in_range_witness :
    (∃ r : ℚ, Floating.midpoint binary32.rne (.fin (((1 : Int) : ℚ) * (2 : ℚ) ^ (0 : Int)))
        (.fin (((3 : Int) : ℚ) * (2 : ℚ) ^ (0 : Int))) = .fin r ∧ binary32.holds r ∧
      min (((1 : Int) : ℚ) * (2 : ℚ) ^ (0 : Int)) (((3 : Int) : ℚ) * (2 : ℚ) ^ (0 : Int)) ≤ r ∧
      r ≤ max (((1 : Int) : ℚ) * (2 : ℚ) ^ (0 : Int)) (((3 : Int) : ℚ) * (2 : ℚ) ^ (0 : Int))) ∧
    binary32.holds binary32.maxFinite ∧ binary32.holds (binary32.maxFinite / 2) ∧
    Floating.add binary32.rne (.fin binary32.maxFinite) (.fin binary32.maxFinite) = .inf false ∧
    Floating.midpoint binary32.rne (.fin binary32.maxFinite) (.fin binary32.maxFinite) =
      Floating.add binary32.rne (Floating.mul binary32.rne (.fin binary32.maxFinite) Floating.half)
        (Floating.mul binary32.rne (.fin binary32.maxFinite) Floating.half) ∧
    Floating.midpoint binary32.rne (.fin binary32.maxFinite) (.fin binary32.maxFinite)
      = .fin binary32.maxFinite ∧
    Floating.add binary32.rne (.fin binary32.maxFinite) (.fin (binary32.maxFinite / 2))
      = .inf false ∧
    Floating.midpoint binary32.rne (.fin binary32.maxFinite) (.fin (binary32.maxFinite / 2)) =
      Floating.add binary32.rne (Floating.mul binary32.rne (.fin binary32.maxFinite) Floating.half)
        (Floating.mul binary32.rne (.fin (binary32.maxFinite / 2)) Floating.half) ∧
    Floating.isfinite
      (Floating.midpoint binary32.rne (.fin binary32.maxFinite) (.fin (binary32.maxFinite / 2)))
      = true :=
  float_midpoint_finite_in_range binary32 (by decide) _ _
    ⟨1, 0, by decide, by decide, by decide, rfl⟩ ⟨3, 0, by decide, by decide, by decide, rfl⟩

/-- C7: for finite values `a`, `b` whose rounded sum `t = a + b` is finite, the overload
returns `t * .5`, and `t * .5` equals the exact `(a + b) / 2` rounded once to the format
(round to nearest, ties to even), subnormal `t` and `t * .5` included. -/
theorem float_midpoint_rounds_once (f : Fmt) (hv : f.valid) (a b t : ℚ) (ha : f.holds a)
    (hb : f.holds b) (ht : Floating.add f.rne (.fin a) (.fin b) = .fin t) :
    Floating.midpoint f.rne (.fin a) (.fin b) = Floating.mul f.rne (.fin t) Floating.half ∧
    Floating.mul f.rne (.fin t) Floating.half = f.rne ((a + b) / 2) ∧
    Floating.midpoint f.rne (.fin a) (.fin b) = f.rne ((a + b) / 2) := by
  have hmid : Floating.midpoint f.rne (.fin a) (.fin b)
      = Floating.mul f.rne (.fin t) Floating.half := by
    unfold Floating.midpoint
    simp only [ht, Floating.isfinite, if_true]
  have hsum : f.rne (a + b) = .fin t := ht
  have hgrid : ∃ n : Int, a + b = (n : ℚ) * (2 : ℚ) ^ f.qmin := by
    obtain ⟨n1, h1⟩ := holds_multiple f a ha
    obtain ⟨n2, h2⟩ := holds_multiple f b hb
    exact ⟨n1 + n2, by rw [h1, h2]; push_cast; ring⟩
  have hhalf : Floating.mul f.rne (.fin t) Floating.half = f.rne ((a + b) / 2) :=
    rne_half_of_rne f hv (a + b) t hgrid hsum
  exact ⟨hmid, hhalf, hmid.trans hhalf⟩

theorem float_midpoint_rounds_once_witness :
    Floating.midpoint binary32.rne (.fin (((3 : Int) : ℚ) * (2 : ℚ) ^ (-149 : Int)))
        (.fin (((0 : Int) : ℚ) * (2 : ℚ) ^ (-149 : Int)))
      = Floating.mul binary32.rne (.fin (((3 : Int) : ℚ) * (2 : ℚ) ^ (-149 : Int)))
          Floating.half ∧
    Floating.mul binary32.rne (.fin (((3 : Int) : ℚ) * (2 : ℚ) ^ (-149 : Int))) Floating.half
      = binary32.rne ((((3 : Int) : ℚ) * (2 : ℚ) ^ (-149 : Int)
          + ((0 : Int) : ℚ) * (2 : ℚ) ^ (-149 : Int)) / 2) ∧
    Floating.midpoint binary32.rne (.fin (((3 : Int) : ℚ) * (2 : ℚ) ^ (-149 : Int)))
        (.fin (((0 : Int) : ℚ) * (2 : ℚ) ^ (-149 : Int)))
      = binary32.rne ((((3 : Int) : ℚ) * (2 : ℚ) ^ (-149 : Int)
          + ((0 : Int) : ℚ) * (2 : ℚ) ^ (-149 : Int)) / 2) :=
  float_midpoint_rounds_once binary32 (by decide) _ _ _
    ⟨3, -149, by decide, by decide, by decide, rfl⟩
    ⟨0, -149, by decide, by decide, by decide, rfl⟩
    (by
      have h : (((3 : Int) : ℚ) * (2 : ℚ) ^ (-149 : Int)
          + ((0 : Int) : ℚ) * (2 : ℚ) ^ (-149 : Int))
          = ((3 : Int) : ℚ) * (2 : ℚ) ^ (-149 : Int) := by simp
      show binary32.rne _ = _
      rw [h]
      exact rne_of_holds binary32 (by decide) _ ⟨3, -149, by decide, by decide, by decide, rfl⟩)

end Midpoint

